import Mathlib

/-!
# Verification of the svelo decode-and-rank pipeline

A shallow embedding, in Lean, of the algorithmic core of the `svelo`
classical-cipher / encoding identification tool:

* `src/svelo/utils.py`   — scoring heuristic, flag detection helpers;
* `src/svelo/decoders.py` — decode probes and keyed cipher encrypt/decrypt;
* `src/svelo/cli.py`     — chain search (`_gather`) and ranking/filtering
  (`_decode_text`).

Modelling conventions:

* A Python `str` is a `List Nat` of Unicode code points; a Python `bytes`
  is a `List Nat` of byte values.  `pyStr` injects Lean string literals.
* Python `float` arithmetic is modelled exactly over `ℚ`; every quantity
  the theorems below compare is far from any rounding boundary.
* Python's Unicode-aware character classes (`str.isalpha`, `str.isdigit`,
  `str.isspace`, `str.lower`, `str.upper`) are modelled on the ASCII
  range, which is the range all data in the repository exercises.
* The SHA-256 content digest used by the chain search for continuation
  dedup is modelled as the identity on byte strings (collision-freeness).
-/

namespace Svelo

/-! ## Python character-class model -/

/-- Code points of a Lean string literal, used to write Python strings. -/
def pyStr (s : String) : List Nat := s.data.map Char.toNat

def isAsciiUpper (c : Nat) : Bool := 65 ≤ c && c ≤ 90

def isAsciiLower (c : Nat) : Bool := 97 ≤ c && c ≤ 122

/-- `str.isalpha` on the ASCII range. -/
def pyIsAlpha (c : Nat) : Bool := isAsciiUpper c || isAsciiLower c

/-- `str.isdigit` on the ASCII range. -/
def pyIsDigit (c : Nat) : Bool := 48 ≤ c && c ≤ 57

/-- `str.isspace` on the ASCII range: space, `\t`, `\n`, `\v`, `\f`, `\r`. -/
def pyIsSpace (c : Nat) : Bool := c == 32 || (9 ≤ c && c ≤ 13)

/-- `str.lower` on one ASCII character. -/
def pyToLower (c : Nat) : Nat := if isAsciiUpper c then c + 32 else c

/-- `str.upper` on one ASCII character. -/
def pyToUpper (c : Nat) : Nat := if isAsciiLower c then c - 32 else c

/-- `str.isalnum` on the ASCII range. -/
def pyIsAlnum (c : Nat) : Bool := pyIsAlpha c || pyIsDigit c

/-- Membership in Python's `string.printable`: the ASCII graphic
characters `!`..`~`, the digits/letters/punctuation they contain, and the
six whitespace characters. -/
def pyIsPrintable (c : Nat) : Bool := (33 ≤ c && c ≤ 126) || pyIsSpace c

/-- `str.strip()`: drop leading and trailing whitespace. -/
def pyStrip (t : List Nat) : List Nat :=
  ((t.dropWhile pyIsSpace).reverse.dropWhile pyIsSpace).reverse

/-! ## utils.py -/

/-- `utils.clean_whitespace`: remove every whitespace character. -/
def clean_whitespace (t : List Nat) : List Nat := t.filter (fun c => !pyIsSpace c)

/-- `utils.pad_to_multiple`: right-pad with `pad` up to a multiple of
`block` (the repository only calls it with positive `block`). -/
def pad_to_multiple (t : List Nat) (block : Nat) (pad : Nat) : List Nat :=
  if block = 0 then t
  else
    let missing := (block - t.length % block) % block
    if missing = 0 then t else t ++ List.replicate missing pad

/-- The fixed common-word list `utils.COMMON_WORDS`. -/
def commonWords : List (List Nat) :=
  [pyStr "the", pyStr "be", pyStr "to", pyStr "of", pyStr "and", pyStr "a",
   pyStr "in", pyStr "that", pyStr "have", pyStr "i", pyStr "it", pyStr "for",
   pyStr "not", pyStr "on", pyStr "with", pyStr "he", pyStr "as", pyStr "you",
   pyStr "do", pyStr "at", pyStr "this", pyStr "but", pyStr "his", pyStr "by",
   pyStr "from", pyStr "they", pyStr "we", pyStr "say", pyStr "her",
   pyStr "she", pyStr "or", pyStr "an", pyStr "will", pyStr "my", pyStr "one",
   pyStr "all", pyStr "would", pyStr "there", pyStr "their", pyStr "what",
   pyStr "so", pyStr "up", pyStr "out", pyStr "if", pyStr "about",
   pyStr "who", pyStr "get", pyStr "which", pyStr "go", pyStr "hello",
   pyStr "me", pyStr "world"]

/-- One character is a hex digit after lowercasing (`0-9a-fA-F`). -/
def isHexLikeChar (c : Nat) : Bool :=
  pyIsDigit c || (97 ≤ pyToLower c && pyToLower c ≤ 102)

/-- `utils.hexlike_ratio`: fraction of non-whitespace characters that are
hex digits. -/
def hexlikeFrac (t : List Nat) : ℚ :=
  let raw := t.filter (fun c => !pyIsSpace c)
  if raw = [] then 0
  else (raw.countP isHexLikeChar : ℚ) / (raw.length : ℚ)

/-- Maximal runs of ASCII letters, the matches of the regex
`[A-Za-z]+` used (with the length-2 filter applied afterwards) by
`utils.english_score`'s `re.findall(r"[A-Za-z]{2,}", text)`. -/
def alphaRunsAux : List Nat → List Nat → List (List Nat)
  | cur, [] => if cur = [] then [] else [cur.reverse]
  | cur, c :: rest =>
      if pyIsAlpha c then alphaRunsAux (c :: cur) rest
      else if cur = [] then alphaRunsAux [] rest
      else cur.reverse :: alphaRunsAux [] rest

def alphaRuns (t : List Nat) : List (List Nat) := alphaRunsAux [] t

/-- A `\w` word character: ASCII letter, digit or underscore. -/
def isWordChar (c : Nat) : Bool := pyIsAlnum c || c == 95

/-- `utils.is_ctf_flag`: `re.search(r"\w+\{.+\}", text.strip())` — some
word character immediately followed by `{`, with a later `}` enclosing at
least one character, none of which is a newline (`.` does not match
`\n`). -/
def is_ctf_flag (t : List Nat) : Bool :=
  let s := pyStrip t
  (List.range s.length).any fun i =>
    isWordChar (s.getD i 0) && s.getD (i + 1) 0 == 123 &&
      ((List.range s.length).any fun j =>
        decide (i + 3 ≤ j) && s.getD j 0 == 125 &&
          ((List.range (j - (i + 2))).all fun k => s.getD (i + 2 + k) 0 != 10))

/-- `utils.english_score`, with `float` modelled over `ℚ`. -/
def english_score (t : List Nat) : ℚ :=
  if t = [] then 0
  else
    let total : ℚ := t.length
    let printableFrac : ℚ := (t.countP pyIsPrintable : ℚ) / total
    let letters : Nat := t.countP pyIsAlpha
    let spaces : Nat := t.countP pyIsSpace
    let digits : Nat := t.countP pyIsDigit
    let vowels : Nat :=
      (t.map pyToLower).countP fun c =>
        decide (c ∈ [97, 101, 105, 111, 117]) && pyIsAlpha c
    let alphaFrac : ℚ := (letters : ℚ) / total
    let spaceFrac : ℚ := (spaces : ℚ) / total
    let digitFrac : ℚ := (digits : ℚ) / total
    let vowelFrac : ℚ := if letters = 0 then 0 else (vowels : ℚ) / (letters : ℚ)
    let words := (alphaRuns t).filter fun w => decide (2 ≤ w.length)
    let wordScore : ℚ :=
      if words = [] then 0
      else ((words.countP fun w => decide (w.map pyToLower ∈ commonWords)) : ℚ) /
        (words.length : ℚ)
    let signal : ℚ :=
      (45 / 100) * alphaFrac + (20 / 100) * spaceFrac +
        (20 / 100) * vowelFrac + (15 / 100) * wordScore
    let score₀ : ℚ := printableFrac * (20 / 100 + (80 / 100) * signal)
    let score₁ : ℚ := score₀ * max 0 (1 - (60 / 100) * digitFrac)
    let score₂ : ℚ :=
      if hexlikeFrac t > 90 / 100 ∧ spaceFrac < 5 / 100 then score₁ * (30 / 100)
      else score₁
    max 0 (min 1 score₂)

/-! ## decoders.py: data model -/

/-- `decoders.DecodeResult`.  `name` and `note` are Python strings that the
claims only ever compare for equality, so they are modelled as Lean
strings; `output` is a byte string. -/
structure DecodeResult where
  name : String
  output : List Nat
  note : String := ""
deriving DecidableEq, Repr

/-- `decoders.Decoder`: a named decode probe.  The probe function takes
the text form and the byte form of the input. -/
structure Decoder where
  name : String
  func : List Nat → List Nat → List DecodeResult

/-! ## UTF-8 (Python `str.encode("utf-8")` / `bytes.decode("utf-8", errors="replace")`) -/

/-- UTF-8 encoding of one code point. -/
def utf8Char (c : Nat) : List Nat :=
  if c < 128 then [c]
  else if c < 2048 then [192 + c / 64, 128 + c % 64]
  else if c < 65536 then [224 + c / 4096, 128 + (c / 64) % 64, 128 + c % 64]
  else [240 + c / 262144, 128 + (c / 4096) % 64, 128 + (c / 64) % 64, 128 + c % 64]

/-- `str.encode("utf-8")`: code points to bytes. -/
def utf8Encode (t : List Nat) : List Nat := t.flatMap utf8Char

def isUtf8Cont (b : Nat) : Bool := 128 ≤ b && b ≤ 191

/-- One step of the replacing UTF-8 decoder: structurally recursive on a
fuel argument (one unit per decoded scalar; `fuel = length` always
suffices since every step consumes at least one byte). -/
def utf8DecodeReplaceAux : Nat → List Nat → List Nat
  | _, [] => []
  | 0, _ => []
  | fuel + 1, b :: rest =>
    if b < 128 then b :: utf8DecodeReplaceAux fuel rest
    else if 194 ≤ b ∧ b ≤ 223 then
      match rest with
      | b2 :: rest2 =>
        if isUtf8Cont b2 then
          ((b - 192) * 64 + (b2 - 128)) :: utf8DecodeReplaceAux fuel rest2
        else 65533 :: utf8DecodeReplaceAux fuel (b2 :: rest2)
      | [] => [65533]
    else if 224 ≤ b ∧ b ≤ 239 then
      match rest with
      | b2 :: b3 :: rest3 =>
        if isUtf8Cont b2 && isUtf8Cont b3 then
          ((b - 224) * 4096 + (b2 - 128) * 64 + (b3 - 128)) ::
            utf8DecodeReplaceAux fuel rest3
        else 65533 :: utf8DecodeReplaceAux fuel (b2 :: b3 :: rest3)
      | _ => [65533]
    else if 240 ≤ b ∧ b ≤ 244 then
      match rest with
      | b2 :: b3 :: b4 :: rest4 =>
        if isUtf8Cont b2 && isUtf8Cont b3 && isUtf8Cont b4 then
          ((b - 240) * 262144 + (b2 - 128) * 4096 + (b3 - 128) * 64 + (b4 - 128)) ::
            utf8DecodeReplaceAux fuel rest4
        else 65533 :: utf8DecodeReplaceAux fuel (b2 :: b3 :: b4 :: rest4)
      | _ => [65533]
    else 65533 :: utf8DecodeReplaceAux fuel rest

/-- `utils.to_text`: `bytes.decode("utf-8", errors="replace")`, decoding
multi-byte sequences and emitting U+FFFD (65533) for invalid bytes.  All
byte strings the theorems below evaluate are pure ASCII. -/
def utf8DecodeReplace (t : List Nat) : List Nat := utf8DecodeReplaceAux t.length t

/-! ## base64 (CPython `binascii.a2b_base64`, lenient mode) -/

/-- Value of one standard-alphabet base64 symbol. -/
def b64SymVal (c : Nat) : Option Nat :=
  if 65 ≤ c ∧ c ≤ 90 then some (c - 65)
  else if 97 ≤ c ∧ c ≤ 122 then some (c - 71)
  else if 48 ≤ c ∧ c ≤ 57 then some (c + 4)
  else if c = 43 then some 62
  else if c = 47 then some 63
  else none

def isB64Char (c : Nat) : Bool := (b64SymVal c).isSome

/-- The three bytes of a completed quad `[v0, v1, v2] ++ [v]`. -/
def b64QuadBytes (quad : List Nat) (v : Nat) : List Nat :=
  let v0 := quad.getD 0 0
  let v1 := quad.getD 1 0
  let v2 := quad.getD 2 0
  [v0 * 4 + v1 / 16, (v1 % 16) * 16 + v2 / 4, (v2 % 4) * 64 + v]

/-- Bytes flushed when padding completes a quad of 2 or 3 data symbols. -/
def b64FinalBytes (quad : List Nat) : List Nat :=
  let v0 := quad.getD 0 0
  let v1 := quad.getD 1 0
  if quad.length = 2 then [v0 * 4 + v1 / 16]
  else [v0 * 4 + v1 / 16, (v1 % 16) * 16 + (quad.getD 2 0) / 4]

/-- CPython `binascii.a2b_base64` in lenient (non-strict) mode: characters
outside the alphabet are skipped; `=` at quad position ≥ 2 counts as
padding and finishes the decode once the quad is completed; a leftover
quad at end of input is an error (`none`). -/
def a2bBase64Aux : List Nat → List Nat → Nat → Option (List Nat)
  | [], quad, _ => if quad.length = 0 then some [] else none
  | c :: rest, quad, pads =>
    match b64SymVal c with
    | some v =>
        if quad.length = 3 then
          (a2bBase64Aux rest [] pads).map (fun out => b64QuadBytes quad v ++ out)
        else a2bBase64Aux rest (quad ++ [v]) pads
    | none =>
        if c = 61 then
          if 2 ≤ quad.length ∧ 4 ≤ quad.length + pads + 1 then some (b64FinalBytes quad)
          else a2bBase64Aux rest quad (if 2 ≤ quad.length then pads + 1 else pads)
        else a2bBase64Aux rest quad pads

def a2bBase64 (s : List Nat) : Option (List Nat) := a2bBase64Aux s [] 0

/-- `base64.b64decode(s, validate=True)`: the input must fully match
`[A-Za-z0-9+/]*={0,2}` before `a2b_base64` runs. -/
def b64decodeValidate (s : List Nat) : Option (List Nat) :=
  let data := s.takeWhile (fun c => c ≠ 61)
  if data.all isB64Char && (s.drop data.length).all (fun c => c == 61) &&
      decide (s.length - data.length ≤ 2) then
    a2bBase64 s
  else none

/-- `base64.urlsafe_b64decode`: translate `-`→`+`, `_`→`/` and decode
leniently (no validation: foreign characters are discarded). -/
def urlsafeB64decode (s : List Nat) : Option (List Nat) :=
  a2bBase64 (s.map fun c => if c = 45 then 43 else if c = 95 then 47 else c)

/-- `decoders._try_base64`. -/
def try_base64 (text : List Nat) (_data : List Nat) : List DecodeResult :=
  let raw := clean_whitespace (pyStrip text)
  if raw = [] then []
  else
    match b64decodeValidate (pad_to_multiple raw 4 61) with
    | none => []
    | some out => [{ name := "base64", output := out }]

/-- `decoders._try_base64url`. -/
def try_base64url (text : List Nat) (_data : List Nat) : List DecodeResult :=
  let raw := clean_whitespace (pyStrip text)
  if raw = [] then []
  else
    match urlsafeB64decode (pad_to_multiple raw 4 61) with
    | none => []
    | some out => [{ name := "base64url", output := out }]

/-! ## url percent-decoding (`urllib.parse.unquote_to_bytes`) -/

def isHexDigitByte (c : Nat) : Bool :=
  pyIsDigit c || (65 ≤ c && c ≤ 70) || (97 ≤ c && c ≤ 102)

def hexVal (c : Nat) : Nat :=
  if c ≤ 57 then c - 48 else if c ≤ 70 then c - 55 else c - 87

/-- `urllib.parse.unquote_to_bytes` on the UTF-8 bytes of the text: `%`
followed by two hex digits becomes one byte; a `%` not followed by two
hex digits stays literal. -/
def unquoteToBytes : List Nat → List Nat
  | [] => []
  | 37 :: h :: l :: rest =>
      if isHexDigitByte h && isHexDigitByte l then
        (hexVal h * 16 + hexVal l) :: unquoteToBytes rest
      else 37 :: unquoteToBytes (h :: l :: rest)
  | c :: rest => c :: unquoteToBytes rest

/-- `decoders._try_url`: note the comparison of the decode of the
*stripped* text against the *unstripped* original bytes. -/
def try_url (text : List Nat) (data : List Nat) : List DecodeResult :=
  let raw := pyStrip text
  if raw = [] then []
  else
    let out := unquoteToBytes (utf8Encode raw)
    if out = data then [] else [{ name := "url", output := out }]

/-! ## xor and caesar probes -/

/-- Lowercase hex digit of a value below 16. -/
def hexDigitChar (v : Nat) : Char := if v < 10 then Char.ofNat (48 + v) else Char.ofNat (87 + v)

/-- `f"0x{key:02x}"`-style two-digit lowercase hex of a byte. -/
def hex2 (v : Nat) : String := String.mk [hexDigitChar (v / 16), hexDigitChar (v % 16)]

/-- `decoders._try_xor`: brute-force every single-byte key 1..255. -/
def try_xor (_text : List Nat) (data : List Nat) : List DecodeResult :=
  if data = [] then []
  else
    (List.range' 1 255).map fun key =>
      { name := "xor", output := data.map fun b => b ^^^ key,
        note := "key=0x" ++ hex2 key }

/-- `decoders._shift_alpha_char` / one character of `_shift_alpha`: shift
an ASCII letter by `shift` (which may be negative — Python `%` on a
positive modulus is `Int.emod`). -/
def shiftAlphaChar (c : Nat) (shift : Int) : Nat :=
  if 97 ≤ c ∧ c ≤ 122 then (((c : Int) - 97 + shift) % 26 + 97).toNat
  else if 65 ≤ c ∧ c ≤ 90 then (((c : Int) - 65 + shift) % 26 + 65).toNat
  else c

/-- `decoders._shift_alpha`. -/
def shift_alpha (t : List Nat) (shift : Int) : List Nat := t.map (shiftAlphaChar · shift)

/-- `decoders._try_caesar`: all shifts 1..25, skipping no-ops; the
candidate for shift `N` is the input un-shifted by `N`. -/
def try_caesar (text : List Nat) (_data : List Nat) : List DecodeResult :=
  if text = [] then []
  else
    (List.range' 1 25).filterMap fun (shift : Nat) =>
      let out := shift_alpha text (-(shift : Int))
      if out = text then none
      else some { name := "caesar", output := utf8Encode out,
                  note := "shift=" ++ toString shift }

/-- `decoders.encode_caesar`. -/
def encode_caesar (t : List Nat) (shift : Int) : List Nat := shift_alpha t shift

end Svelo

namespace Svelo

/-- **C4.** For every string `t`, `english_score t` lies in `[0, 1]`, and
the score of the empty string is exactly `0`.  (Purity and determinism
are inherent: `english_score` is a function of the character list
alone.) -/
theorem c4_english_score_bounds :
    (∀ t : List Nat, 0 ≤ english_score t ∧ english_score t ≤ 1) ∧
      english_score [] = 0 := by
  constructor
  · intro t
    unfold english_score
    by_cases h : t = []
    · simp [h]
    · simp only [h, if_false]
      exact ⟨le_max_left 0 _, max_le (by norm_num) (min_le_left 1 _)⟩
  · rfl

end Svelo

namespace Svelo

/-! ## cli.py: chain search (`_gather`) -/

/-- `cli.DecodedItem`: one path through the search tree. -/
structure DecodedItem where
  chain : List String
  data : List Nat
deriving DecidableEq, Repr

/-- `cli._label`: `name` or `"name:note"`. -/
def label (r : DecodeResult) : String :=
  if r.note = "" then r.name else r.name ++ ":" ++ r.note

/-- A frontier entry of the breadth-first search: `(text, data, chain)`. -/
abbrev Frontier : Type := List Nat × List Nat × List String

/-- Mutable state threaded through `_gather`'s loops.  `seen` holds the
content digests (modelled as the output bytes themselves) of candidates
already expanded. -/
structure GatherSt where
  results : List DecodedItem
  seen : List (List Nat)
  nextQueue : List Frontier

/-- The item one candidate contributes to the accumulating result list:
chain extended with the candidate's label, plus its output bytes. -/
def candItem (chain : List String) (r : DecodeResult) : DecodedItem :=
  ⟨chain ++ [label r], r.output⟩

/-- The state update of one iteration of `_gather`'s candidate loop,
after the `max_results` check: append the produced item, then (unless the
content digest was already seen) record the digest and, when the next
level is still to run (`advance`), add the candidate to the next
frontier. -/
def candStep (advance : Bool) (chain : List String) (res : DecodeResult)
    (st : GatherSt) : GatherSt :=
  let st₁ : GatherSt := { st with results := st.results ++ [candItem chain res] }
  if res.output ∈ st₁.seen then st₁
  else
    let st₂ : GatherSt := { st₁ with seen := st₁.seen ++ [res.output] }
    if advance then
      { st₂ with nextQueue :=
          st₂.nextQueue ++ [(utf8DecodeReplace res.output, res.output, chain ++ [label res])] }
    else st₂

/-- The innermost loop of `cli._gather`: process the candidates one probe
returned for one frontier item.  Each produced item is appended at once;
`.inr r` models the early `return results` the moment `max_results` is
reached; `advance` is `level + 1 < depth`. -/
def gatherCands (maxResults : Nat) (advance : Bool) (chain : List String) :
    List DecodeResult → GatherSt → GatherSt ⊕ List DecodedItem
  | [], st => .inl st
  | res :: rest, st =>
      let results := st.results ++ [candItem chain res]
      if maxResults ≤ results.length then .inr results
      else gatherCands maxResults advance chain rest (candStep advance chain res st)

/-- Loop over the enabled probes for one frontier item. -/
def gatherDecoders (maxResults : Nat) (advance : Bool) (text data : List Nat)
    (chain : List String) :
    List Decoder → GatherSt → GatherSt ⊕ List DecodedItem
  | [], st => .inl st
  | d :: ds, st =>
      match gatherCands maxResults advance chain (d.func text data) st with
      | .inr r => .inr r
      | .inl st₁ => gatherDecoders maxResults advance text data chain ds st₁

/-- Loop over the frontier of one breadth level. -/
def gatherQueue (maxResults : Nat) (advance : Bool) (decoders : List Decoder) :
    List Frontier → GatherSt → GatherSt ⊕ List DecodedItem
  | [], st => .inl st
  | ⟨text, data, chain⟩ :: qs, st =>
      match gatherDecoders maxResults advance text data chain decoders st with
      | .inr r => .inr r
      | .inl st₁ => gatherQueue maxResults advance decoders qs st₁

/-- Loop over the breadth levels; the `Nat` counts the levels still to
run, so `advance = level + 1 < depth` becomes `1 ≤ n`. -/
def gatherLevels (maxResults : Nat) (decoders : List Decoder) :
    Nat → List Frontier → GatherSt → List DecodedItem
  | 0, _, st => st.results
  | n + 1, queue, st =>
      match gatherQueue maxResults (decide (1 ≤ n)) decoders queue
          { st with nextQueue := [] } with
      | .inr r => r
      | .inl st₁ => gatherLevels maxResults decoders n st₁.nextQueue st₁

/-- `cli._gather`. -/
def gather (text data : List Nat) (decoders : List Decoder)
    (depth maxResults : Nat) : List DecodedItem :=
  gatherLevels maxResults decoders depth [(text, data, [])] ⟨[], [], []⟩

/-! The uncapped reference run: the same search without the
`max_results` early return, used to state that the capped search is a
truncation (a prefix) of a fixed enumeration, not a sample of it. -/

def gatherCandsAll (advance : Bool) (chain : List String) :
    List DecodeResult → GatherSt → GatherSt
  | [], st => st
  | res :: rest, st => gatherCandsAll advance chain rest (candStep advance chain res st)

def gatherDecodersAll (advance : Bool) (text data : List Nat) (chain : List String) :
    List Decoder → GatherSt → GatherSt
  | [], st => st
  | d :: ds, st =>
      gatherDecodersAll advance text data chain ds
        (gatherCandsAll advance chain (d.func text data) st)

def gatherQueueAll (advance : Bool) (decoders : List Decoder) :
    List Frontier → GatherSt → GatherSt
  | [], st => st
  | ⟨text, data, chain⟩ :: qs, st =>
      gatherQueueAll advance decoders qs
        (gatherDecodersAll advance text data chain decoders st)

def gatherLevelsAll (decoders : List Decoder) :
    Nat → List Frontier → GatherSt → List DecodedItem
  | 0, _, st => st.results
  | n + 1, queue, st =>
      let st₁ := gatherQueueAll (decide (1 ≤ n)) decoders queue { st with nextQueue := [] }
      gatherLevelsAll decoders n st₁.nextQueue st₁

def gatherAll (text data : List Nat) (decoders : List Decoder) (depth : Nat) :
    List DecodedItem :=
  gatherLevelsAll decoders depth [(text, data, [])] ⟨[], [], []⟩

/-! ## cli.py: ranking and filtering (`_decode_text`) -/

/-- `cli.ScoredItem`. -/
structure ScoredItem where
  item : DecodedItem
  outputText : List Nat
  absScore : ℚ
  delta : ℚ
deriving DecidableEq, Repr

/-- `cli._rank_key`: the sort key for the selected rank mode, as the list
of tuple components. -/
def rank_key (absScore delta : ℚ) (mode : String) : List ℚ :=
  if mode = "absolute" then [absScore, delta]
  else if mode = "delta" then [delta, absScore]
  else [absScore + max 0 delta, absScore, delta]

/-- Python tuple `<` on rank keys (only ever compared at equal length). -/
def keyLt : List ℚ → List ℚ → Bool
  | [], [] => false
  | [], _ :: _ => true
  | _ :: _, [] => false
  | a :: as, b :: bs => if a < b then true else if b < a then false else keyLt as bs

/-- Insert into a descending-sorted list, after any element whose key is
not strictly smaller (so equal keys keep first-come order). -/
def insertDesc (key : ScoredItem → List ℚ) (x : ScoredItem) :
    List ScoredItem → List ScoredItem
  | [] => [x]
  | y :: ys => if keyLt (key y) (key x) then x :: y :: ys else y :: insertDesc key x ys

/-- Python `list.sort(key=…, reverse=True)`: a stable descending sort. -/
def sortDesc (key : ScoredItem → List ℚ) (l : List ScoredItem) : List ScoredItem :=
  l.foldl (fun acc x => insertDesc key x acc) []

/-- First-occurrence dedup, the `seen`-set pattern `_decode_text` uses on
`(chain, data)` pairs (the whole `DecodedItem`). -/
def dedupFirstAux {α : Type} [DecidableEq α] : List α → List α → List α
  | _, [] => []
  | seen, x :: rest =>
      if x ∈ seen then dedupFirstAux seen rest
      else x :: dedupFirstAux (x :: seen) rest

def dedupFirst {α : Type} [DecidableEq α] (l : List α) : List α := dedupFirstAux [] l

/-- `cli._base_name`: transform name of the last chain label, with any
`:note` suffix stripped. -/
def base_name (chain : List String) : String :=
  match chain.getLast? with
  | none => ""
  | some last => String.mk (last.data.takeWhile fun c => c ≠ ':')

/-- The per-transform-cap walk of `_decode_text` (step `max_per_decoder`),
with the `counts` dict as an association list. -/
def capWalk (cap : Nat) : List ScoredItem → List (String × Nat) → List ScoredItem
  | [], _ => []
  | s :: rest, counts =>
      let base := base_name s.item.chain
      let cnt := ((counts.lookup base).getD 0)
      if cap ≤ cnt then capWalk cap rest counts
      else s :: capWalk cap rest ((base, cnt + 1) :: counts)

/-- `cli._decode_text` up to (and including) the filtering pipeline: the
ordered list that would be printed.  Mirrors lines 774–821 of `cli.py`:
gather, structural dedup, score against the stripped input, stable
descending sort, score/delta filter (skipped when `show_all`),
per-transform cap, top-`top` truncation. -/
def decode_text_filter (text : List Nat) (decoders : List Decoder)
    (chainDepth : Nat) (minScore minDelta : ℚ) (showAll : Bool) (top : Nat)
    (rank : String) (maxPerDecoder maxResults : Nat) : List ScoredItem :=
  let data := utf8Encode text
  let results := gather text data decoders chainDepth maxResults
  let deduped := dedupFirst results
  let inputScore := english_score (pyStrip text)
  let scored := deduped.map fun item =>
    let outputText := utf8DecodeReplace item.data
    let absScore := english_score (pyStrip outputText)
    { item := item, outputText := outputText, absScore := absScore,
      delta := absScore - inputScore }
  let sorted := sortDesc (fun s => rank_key s.absScore s.delta rank) scored
  if showAll then sorted
  else
    let filtered := sorted.filter fun s => minScore ≤ s.absScore && minDelta ≤ s.delta
    let capped := if maxPerDecoder = 0 then filtered else capWalk maxPerDecoder filtered []
    capped.take top

end Svelo

namespace Svelo

/-! ## Chain-search lemmas: the capped run is a truncation of the
uncapped enumeration -/

lemma candStep_results (advance : Bool) (chain : List String) (res : DecodeResult)
    (st : GatherSt) :
    (candStep advance chain res st).results = st.results ++ [candItem chain res] := by
  simp only [candStep]
  split_ifs <;> rfl

lemma gatherCandsAll_results (advance : Bool) (chain : List String)
    (cands : List DecodeResult) (st : GatherSt) :
    (gatherCandsAll advance chain cands st).results =
      st.results ++ cands.map (candItem chain) := by
  induction cands generalizing st with
  | nil => simp [gatherCandsAll]
  | cons r rest ih =>
      simp [gatherCandsAll, ih, candStep_results, List.append_assoc]

lemma gatherDecodersAll_results (advance : Bool) (text data : List Nat)
    (chain : List String) (ds : List Decoder) (st : GatherSt) :
    (gatherDecodersAll advance text data chain ds st).results =
      st.results ++ ds.flatMap fun dec => (dec.func text data).map (candItem chain) := by
  induction ds generalizing st with
  | nil => simp [gatherDecodersAll]
  | cons d ds ih =>
      simp [gatherDecodersAll, ih, gatherCandsAll_results, List.append_assoc]

lemma gatherQueueAll_results (advance : Bool) (decoders : List Decoder)
    (queue : List Frontier) (st : GatherSt) :
    (gatherQueueAll advance decoders queue st).results =
      st.results ++ queue.flatMap fun q =>
        decoders.flatMap fun dec => (dec.func q.1 q.2.1).map (candItem q.2.2) := by
  induction queue generalizing st with
  | nil => simp [gatherQueueAll]
  | cons q qs ih =>
      obtain ⟨text, data, chain⟩ := q
      simp [gatherQueueAll, ih, gatherDecodersAll_results, List.append_assoc]

lemma gatherLevelsAll_extends (decoders : List Decoder) (n : Nat)
    (queue : List Frontier) (st : GatherSt) :
    ∃ ext, gatherLevelsAll decoders n queue st = st.results ++ ext := by
  induction n generalizing queue st with
  | zero => exact ⟨[], by simp [gatherLevelsAll]⟩
  | succ n ih =>
      simp only [gatherLevelsAll]
      obtain ⟨ext, hext⟩ := ih
        (gatherQueueAll (decide (1 ≤ n)) decoders queue { st with nextQueue := [] }).nextQueue
        (gatherQueueAll (decide (1 ≤ n)) decoders queue { st with nextQueue := [] })
      rw [hext, gatherQueueAll_results]
      exact ⟨(queue.flatMap fun q =>
          decoders.flatMap fun dec => (dec.func q.1 q.2.1).map (candItem q.2.2)) ++ ext,
        List.append_assoc _ _ _⟩

lemma gatherCands_spec (maxResults : Nat) (advance : Bool) (chain : List String)
    (cands : List DecodeResult) (st : GatherSt)
    (h : st.results.length < maxResults) :
    gatherCands maxResults advance chain cands st =
      if (gatherCandsAll advance chain cands st).results.length < maxResults
      then .inl (gatherCandsAll advance chain cands st)
      else .inr ((gatherCandsAll advance chain cands st).results.take maxResults) := by
  induction cands generalizing st with
  | nil => simp [gatherCands, gatherCandsAll, h]
  | cons r rest ih =>
      simp only [gatherCands, gatherCandsAll]
      by_cases hcap : maxResults ≤ (st.results ++ [candItem chain r]).length
      · have hlen : st.results.length + 1 = maxResults := by
          simp only [List.length_append, List.length_cons, List.length_nil] at hcap
          omega
        have hrest : (gatherCandsAll advance chain rest (candStep advance chain r st)).results
            = (st.results ++ [candItem chain r]) ++ rest.map (candItem chain) := by
          rw [gatherCandsAll_results, candStep_results]
        rw [if_pos hcap, if_neg (by
          rw [hrest]
          simp only [List.length_append, List.length_map, List.length_cons, List.length_nil]
          omega)]
        rw [hrest]
        have h1 : (st.results ++ [candItem chain r]).length = maxResults := by
          simp only [List.length_append, List.length_cons, List.length_nil]
          omega
        rw [← h1, List.take_left]
      · rw [if_neg hcap]
        exact ih (candStep advance chain r st)
          (by rw [candStep_results]; omega)

lemma gatherDecoders_spec (maxResults : Nat) (advance : Bool) (text data : List Nat)
    (chain : List String) (ds : List Decoder) (st : GatherSt)
    (h : st.results.length < maxResults) :
    gatherDecoders maxResults advance text data chain ds st =
      if (gatherDecodersAll advance text data chain ds st).results.length < maxResults
      then .inl (gatherDecodersAll advance text data chain ds st)
      else .inr ((gatherDecodersAll advance text data chain ds st).results.take maxResults) := by
  induction ds generalizing st with
  | nil => simp [gatherDecoders, gatherDecodersAll, h]
  | cons d ds ih =>
      simp only [gatherDecoders, gatherDecodersAll]
      rw [gatherCands_spec maxResults advance chain _ st h]
      by_cases hc : (gatherCandsAll advance chain (d.func text data) st).results.length < maxResults
      · rw [if_pos hc]
        exact ih _ hc
      · rw [if_neg hc]
        have hrest := gatherDecodersAll_results advance text data chain ds
          (gatherCandsAll advance chain (d.func text data) st)
        rw [if_neg (by rw [hrest]; simp; omega)]
        rw [hrest, List.take_append_of_le_length (by omega)]

lemma gatherQueue_spec (maxResults : Nat) (advance : Bool) (decoders : List Decoder)
    (queue : List Frontier) (st : GatherSt)
    (h : st.results.length < maxResults) :
    gatherQueue maxResults advance decoders queue st =
      if (gatherQueueAll advance decoders queue st).results.length < maxResults
      then .inl (gatherQueueAll advance decoders queue st)
      else .inr ((gatherQueueAll advance decoders queue st).results.take maxResults) := by
  induction queue generalizing st with
  | nil => simp [gatherQueue, gatherQueueAll, h]
  | cons q qs ih =>
      obtain ⟨text, data, chain⟩ := q
      simp only [gatherQueue, gatherQueueAll]
      rw [gatherDecoders_spec maxResults advance text data chain decoders st h]
      by_cases hc : (gatherDecodersAll advance text data chain decoders st).results.length
          < maxResults
      · rw [if_pos hc]
        exact ih _ hc
      · rw [if_neg hc]
        have hrest := gatherQueueAll_results advance decoders qs
          (gatherDecodersAll advance text data chain decoders st)
        rw [if_neg (by rw [hrest]; simp; omega)]
        rw [hrest, List.take_append_of_le_length (by omega)]

lemma gatherLevels_spec (maxResults : Nat) (decoders : List Decoder) (n : Nat)
    (queue : List Frontier) (st : GatherSt)
    (h : st.results.length < maxResults) :
    gatherLevels maxResults decoders n queue st =
      (gatherLevelsAll decoders n queue st).take maxResults := by
  induction n generalizing queue st with
  | zero =>
      simp only [gatherLevels, gatherLevelsAll]
      rw [List.take_of_length_le (by omega)]
  | succ n ih =>
      simp only [gatherLevels, gatherLevelsAll]
      rw [gatherQueue_spec maxResults (decide (1 ≤ n)) decoders queue
        { st with nextQueue := [] } h]
      by_cases hc : (gatherQueueAll (decide (1 ≤ n)) decoders queue
          { st with nextQueue := [] }).results.length < maxResults
      · rw [if_pos hc]
        exact ih _ _ hc
      · rw [if_neg hc]
        obtain ⟨ext, hext⟩ := gatherLevelsAll_extends decoders n
          (gatherQueueAll (decide (1 ≤ n)) decoders queue { st with nextQueue := [] }).nextQueue
          (gatherQueueAll (decide (1 ≤ n)) decoders queue { st with nextQueue := [] })
        rw [hext, List.take_append_of_le_length (by omega)]

lemma gather_eq_take (text data : List Nat) (decoders : List Decoder)
    (depth maxResults : Nat) (h : 1 ≤ maxResults) :
    gather text data decoders depth maxResults =
      (gatherAll text data decoders depth).take maxResults :=
  gatherLevels_spec maxResults decoders depth [(text, data, [])] ⟨[], [], []⟩ (by simpa)

lemma gatherAll_depth_one (text data : List Nat) (decoders : List Decoder) :
    gatherAll text data decoders 1 =
      decoders.flatMap fun dec => (dec.func text data).map fun r => ⟨[label r], r.output⟩ := by
  have hc : candItem ([] : List String) = fun r => (⟨[label r], r.output⟩ : DecodedItem) := by
    funext r
    simp [candItem]
  simp only [gatherAll, gatherLevelsAll, gatherQueueAll, gatherQueueAll_results,
    gatherDecodersAll_results]
  simp [hc]

end Svelo

namespace Svelo

/-- The base64 probe as a registry entry, used by several concrete runs. -/
def base64Decoder : Decoder := ⟨"base64", try_base64⟩

set_option maxRecDepth 1000000

/-- **C3 (amended).** For every input, probe set, depth and
`max_results ≥ 1`, the chain search equals the `max_results`-prefix of
the uncapped breadth-first enumeration (truncation, not sampling), so it
returns at most `max_results` items; at depth 1 it is exactly the
`max_results`-prefix of the probes' candidates in probe-iteration order.
With `depth = 1` and `max_results = 1` this gives *at most* one item —
the first candidate of the first producing probe — and the empty list
when no probe produces a candidate (the original claim's "exactly 1" does
not hold in that case). -/
theorem c3_gather_truncation :
    (∀ (text data : List Nat) (decoders : List Decoder) (depth maxResults : Nat),
        1 ≤ maxResults →
          gather text data decoders depth maxResults =
              (gatherAll text data decoders depth).take maxResults ∧
            (gather text data decoders depth maxResults).length ≤ maxResults) ∧
      ∀ (text data : List Nat) (decoders : List Decoder) (maxResults : Nat),
        1 ≤ maxResults →
          gather text data decoders 1 maxResults =
            (decoders.flatMap fun dec =>
              (dec.func text data).map fun r => ⟨[label r], r.output⟩).take maxResults := by
  constructor
  · intro text data decoders depth maxResults h
    refine ⟨gather_eq_take text data decoders depth maxResults h, ?_⟩
    rw [gather_eq_take text data decoders depth maxResults h]
    exact List.length_take_le maxResults _
  · intro text data decoders maxResults h
    rw [gather_eq_take text data decoders 1 maxResults h, gatherAll_depth_one]

/-- Witness for C3: a concrete depth-1, `max_results = 1` run applied
through the theorem. -/
theorem c3_gather_truncation_witness :
    gather (pyStr "SGVsbG8=") (utf8Encode (pyStr "SGVsbG8=")) [base64Decoder] 1 1 =
      [⟨["base64"], pyStr "Hello"⟩] := by
  rw [c3_gather_truncation.2 (pyStr "SGVsbG8=") (utf8Encode (pyStr "SGVsbG8="))
    [base64Decoder] 1 (by decide)]
  decide

/-- Counterexample for C3 as stated: with `depth = 1` and
`max_results = 1` but an input no enabled probe decodes, the search
returns 0 items, not "exactly 1". -/
theorem c3_counterexample :
    (gather (pyStr "!!!") (utf8Encode (pyStr "!!!")) [base64Decoder] 1 1).length ≠ 1 := by
  decide

end Svelo

namespace Svelo

/-! ## Helper lemmas for the probe theorems -/

lemma map_eq_self_mem {f : Nat → Nat} {l : List Nat} (h : l.map f = l) :
    ∀ x ∈ l, f x = x := by
  induction l with
  | nil => simp
  | cons a l ih =>
      simp only [List.map_cons, List.cons.injEq] at h
      intro x hx
      rcases List.mem_cons.mp hx with rfl | hx
      · exact h.1
      · exact ih h.2 x hx

lemma map_id_of_pointwise {f : Nat → Nat} (h : ∀ x, f x = x) (l : List Nat) :
    l.map f = l := by
  induction l with
  | nil => rfl
  | cons a l ih => simp [h a, ih]

lemma filter_eq_singleton {l : List Nat} {k : Nat} (hn : l.Nodup) (hk : k ∈ l) :
    l.filter (fun j => decide (j = k)) = [k] := by
  induction l with
  | nil => cases hk
  | cons a l ih =>
      rcases List.mem_cons.mp hk with rfl | h
      · have hnot : ∀ j ∈ l, ¬(j = k) := fun j hj e =>
          (List.nodup_cons.mp hn).1 (e ▸ hj)
        have hfl : l.filter (fun j => decide (j = k)) = [] :=
          List.filter_eq_nil_iff.mpr fun j hj => by simpa using hnot j hj
        simp [List.filter_cons, hfl]
      · have hne : ¬(a = k) := fun e => (List.nodup_cons.mp hn).1 (e ▸ h)
        simp only [List.filter_cons]
        simp [hne, ih (List.nodup_cons.mp hn).2 h]

lemma xor_map_eq_iff {p : List Nat} (hp : p ≠ []) (k j : Nat) :
    ((p.map fun b => b ^^^ k).map fun b => b ^^^ j) = p ↔ j = k := by
  rw [List.map_map]
  constructor
  · intro h
    obtain ⟨b, hb⟩ := List.exists_mem_of_ne_nil p hp
    have hbe : (b ^^^ k) ^^^ j = b := map_eq_self_mem h b hb
    rw [Nat.xor_assoc] at hbe
    have h0 : k ^^^ j = 0 := by
      have h2 : b ^^^ (b ^^^ (k ^^^ j)) = b ^^^ b := by rw [hbe]
      rw [← Nat.xor_assoc, Nat.xor_self, Nat.zero_xor] at h2
      exact h2
    exact (Nat.xor_eq_zero.mp h0).symm
  · rintro rfl
    exact map_id_of_pointwise
      (fun b => by simp [Function.comp, Nat.xor_assoc, Nat.xor_self, Nat.xor_zero]) p

end Svelo

namespace Svelo

/-- **C5.** The xor probe on any non-empty byte string returns exactly
255 candidates; the `k`-th (for keys `k = 1..255`) is the byte-wise XOR
of the input with `k`, with note `key=0x{k:02x}`; consequently running
the probe on `p XOR k` yields exactly one candidate among the 255 whose
output is `p`, tagged with that key; and the probe returns empty only
for empty input. -/
theorem c5_xor_probe :
    (∀ (text data : List Nat), data ≠ [] →
        (try_xor text data).length = 255 ∧
        ∀ k : Nat, 1 ≤ k → k ≤ 255 →
          (try_xor text data)[k - 1]? =
            some { name := "xor", output := data.map fun b => b ^^^ k,
                   note := "key=0x" ++ hex2 k }) ∧
      (∀ (text p : List Nat) (k : Nat), p ≠ [] → 1 ≤ k → k ≤ 255 →
        ((try_xor text (p.map fun b => b ^^^ k)).filter fun r =>
            decide (r.output = p)) =
          [{ name := "xor", output := p, note := "key=0x" ++ hex2 k }]) ∧
      ∀ text : List Nat, try_xor text [] = [] := by
  refine ⟨?_, ?_, fun _ => rfl⟩
  · intro text data hdata
    constructor
    · simp [try_xor, hdata]
    · intro k h1 h2
      have hk : k - 1 < 255 := by omega
      have hadd : 1 + (k - 1) = k := by omega
      simp [try_xor, hdata, List.getElem?_map, List.getElem?_range', hk, hadd]
  · intro text p k hp h1 h2
    have hmap : (p.map fun b => b ^^^ k) ≠ [] := by
      cases p with
      | nil => exact absurd rfl hp
      | cons a l => simp
    simp only [try_xor, if_neg hmap]
    rw [List.filter_map]
    have hcong : ∀ j ∈ List.range' 1 255,
        ((fun r => decide (r.output = p)) ∘ fun key =>
            ({ name := "xor", output := (p.map fun b => b ^^^ k).map fun b => b ^^^ key,
               note := "key=0x" ++ hex2 key } : DecodeResult)) j =
          (fun j => decide (j = k)) j := by
      intro j _
      simp only [Function.comp]
      exact decide_eq_decide.mpr (xor_map_eq_iff hp k j)
    rw [List.filter_congr hcong,
      filter_eq_singleton (List.nodup_range' _ _) (List.mem_range'_1.mpr ⟨h1, by omega⟩)]
    simp only [List.map_cons, List.map_nil, List.cons.injEq, and_true]
    have : ((p.map fun b => b ^^^ k).map fun b => b ^^^ k) = p :=
      (xor_map_eq_iff hp k k).mpr rfl
    rw [this]

/-- Witness for C5: the probe on `"Hi" XOR 0x2a` contains exactly one
candidate with output `"Hi"`, tagged `key=0x2a`. -/
theorem c5_xor_probe_witness :
    ((try_xor [] ((pyStr "Hi").map fun b => b ^^^ 42)).filter fun r =>
        decide (r.output = pyStr "Hi")) =
      [{ name := "xor", output := pyStr "Hi", note := "key=0x" ++ hex2 42 }] :=
  c5_xor_probe.2.1 [] (pyStr "Hi") 42 (by decide) (by decide) (by decide)

end Svelo

namespace Svelo

lemma shiftAlphaChar_cancel (c : Nat) (s : Int) :
    shiftAlphaChar (shiftAlphaChar c s) (-s) = c := by
  by_cases hl : 97 ≤ c ∧ c ≤ 122
  · set d := shiftAlphaChar c s with hdef
    have hv : d = (((c : Int) - 97 + s) % 26 + 97).toNat := by
      rw [hdef]
      unfold shiftAlphaChar
      rw [if_pos hl]
    unfold shiftAlphaChar
    rw [if_pos (show 97 ≤ d ∧ d ≤ 122 by omega)]
    omega
  · by_cases hu : 65 ≤ c ∧ c ≤ 90
    · set d := shiftAlphaChar c s with hdef
      have hv : d = (((c : Int) - 65 + s) % 26 + 65).toNat := by
        rw [hdef]
        unfold shiftAlphaChar
        rw [if_neg hl, if_pos hu]
      unfold shiftAlphaChar
      rw [if_neg (show ¬(97 ≤ d ∧ d ≤ 122) by omega),
        if_pos (show 65 ≤ d ∧ d ≤ 90 by omega)]
      omega
    · have hv : shiftAlphaChar c s = c := by
        unfold shiftAlphaChar
        rw [if_neg hl, if_neg hu]
      rw [hv]
      unfold shiftAlphaChar
      rw [if_neg hl, if_neg hu]

lemma shiftAlphaChar_ne (c : Nat) (N : Nat) (hc : pyIsAlpha c = true)
    (h1 : 1 ≤ N) (h2 : N ≤ 25) : shiftAlphaChar c (N : Int) ≠ c := by
  unfold pyIsAlpha isAsciiUpper isAsciiLower at hc
  simp only [Bool.or_eq_true, Bool.and_eq_true, decide_eq_true_eq] at hc
  unfold shiftAlphaChar
  rcases hc with hu | hl
  · rw [if_neg (by omega), if_pos (by omega)]
    intro he
    omega
  · rw [if_pos (by omega)]
    intro he
    omega

lemma shift_alpha_cancel (t : List Nat) (s : Int) :
    shift_alpha (shift_alpha t s) (-s) = t := by
  simp only [shift_alpha, List.map_map]
  exact map_id_of_pointwise (fun c => shiftAlphaChar_cancel c s) t

/-- **C6.** The caesar probe tries the 25 non-zero shifts at most once
each (so at most 25 candidates, skipping no-ops), and on the
Caesar-shift-`N` encryption of a plaintext containing at least one ASCII
letter its output includes the candidate with note `shift=N` whose
output is the plaintext. -/
theorem c6_caesar_probe :
    (∀ (text data : List Nat), (try_caesar text data).length ≤ 25) ∧
      ∀ (p : List Nat) (data : List Nat) (N : Nat), 1 ≤ N → N ≤ 25 →
        (∃ c ∈ p, pyIsAlpha c = true) →
        { name := "caesar", output := utf8Encode p,
          note := "shift=" ++ toString N } ∈
          try_caesar (encode_caesar p (N : Int)) data := by
  constructor
  · intro text data
    unfold try_caesar
    split_ifs
    · simp
    · exact le_trans (List.length_filterMap_le _ _) (by simp)
  · intro p data N h1 h2 hex
    obtain ⟨c0, hc0, halpha⟩ := hex
    have hne : shift_alpha p (N : Int) ≠ p := by
      intro heq
      exact shiftAlphaChar_ne c0 N halpha h1 h2 (map_eq_self_mem heq c0 hc0)
    have hnonempty : encode_caesar p (N : Int) ≠ [] := by
      unfold encode_caesar shift_alpha
      cases p with
      | nil => cases hc0
      | cons a l => simp
    unfold try_caesar
    rw [if_neg hnonempty]
    apply List.mem_filterMap.mpr
    refine ⟨N, List.mem_range'_1.mpr ⟨h1, by omega⟩, ?_⟩
    simp only [encode_caesar, shift_alpha_cancel]
    exact if_neg fun heq => hne heq.symm

/-- Witness for C6: decoding `"Khoor"` (Caesar shift 3 of `"Hello"`)
produces the `shift=3` candidate with output `"Hello"`. -/
theorem c6_caesar_probe_witness :
    { name := "caesar", output := utf8Encode (pyStr "Hello"),
      note := "shift=" ++ toString 3 } ∈
      try_caesar (encode_caesar (pyStr "Hello") ((3 : Nat) : Int)) [] :=
  c6_caesar_probe.2 (pyStr "Hello") [] 3 (by decide) (by decide)
    ⟨72, by decide, by decide⟩

end Svelo

namespace Svelo

/-- **C9.** The base64 and base64url probes are not equivalent on inputs
free of `+`, `/`, `-`, `_`: on `"SGVsbG8=****"` — whose `*` (42) lies
outside both alphabets — the base64url probe discards the foreign
characters and decodes to `"Hello"`, while the strictly-validating
base64 probe returns the empty list. -/
theorem c9_base64url_divergence :
    (42 ∈ pyStr "SGVsbG8=****") ∧ isB64Char 42 = false ∧
      (42 ≠ 43 ∧ 42 ≠ 47 ∧ 42 ≠ 45 ∧ 42 ≠ 95) ∧
      try_base64url (pyStr "SGVsbG8=****") (utf8Encode (pyStr "SGVsbG8=****")) =
        [{ name := "base64url", output := pyStr "Hello" }] ∧
      try_base64 (pyStr "SGVsbG8=****") (utf8Encode (pyStr "SGVsbG8=****")) = [] := by
  decide

/-- Counterexample for C10 as stated: `" a"` contains no percent-escape,
so percent-decoding it yields its own bytes unchanged, yet the url probe
returns a candidate (the stripped text), because the probe compares the
decode of the *stripped* text with the *unstripped* original bytes. -/
theorem c10_counterexample :
    unquoteToBytes (utf8Encode (pyStr " a")) = utf8Encode (pyStr " a") ∧
      try_url (pyStr " a") (utf8Encode (pyStr " a")) =
        [{ name := "url", output := pyStr "a" }] := by
  decide

/-- **C10 (amended).** For text with no surrounding whitespace the url
probe has a pure no-op guard: it returns the empty list exactly when the
text is empty or percent-decoding leaves the bytes unchanged, and
otherwise returns exactly one candidate whose output is the
percent-decode; text with surrounding whitespace can yield a candidate
even without any percent-escape (see the counterexample). -/
theorem c10_url_noop_guard :
    (∀ text : List Nat, pyStrip text = text →
        (try_url text (utf8Encode text) = [] ↔
          text = [] ∨ unquoteToBytes (utf8Encode text) = utf8Encode text)) ∧
      ∀ text : List Nat, pyStrip text = text → text ≠ [] →
        unquoteToBytes (utf8Encode text) ≠ utf8Encode text →
        try_url text (utf8Encode text) =
          [{ name := "url", output := unquoteToBytes (utf8Encode text) }] := by
  constructor
  · intro text hstrip
    unfold try_url
    rw [hstrip]
    by_cases hempty : text = []
    · simp [hempty]
    · rw [if_neg hempty]
      by_cases hnoop : unquoteToBytes (utf8Encode text) = utf8Encode text
      · simp [hnoop, hempty]
      · simp [hnoop, hempty]
  · intro text hstrip hempty hnoop
    unfold try_url
    rw [hstrip, if_neg hempty, if_neg hnoop]

/-- Witness for C10: `"%41"` percent-decodes to `"A"`, and the probe
returns exactly that one candidate. -/
theorem c10_url_noop_guard_witness :
    try_url (pyStr "%41") (utf8Encode (pyStr "%41")) =
      [{ name := "url", output := unquoteToBytes (utf8Encode (pyStr "%41")) }] :=
  c10_url_noop_guard.2 (pyStr "%41") (by decide) (by decide) (by decide)

end Svelo

namespace Svelo

/-! ## cli.py default filter settings -/

def DEFAULT_CHAIN_DEPTH : Nat := 1

def DEFAULT_MIN_SCORE : ℚ := 25 / 100

def DEFAULT_MIN_DELTA : ℚ := 0

def DEFAULT_TOP : Nat := 5

def DEFAULT_RANK : String := "both"

def DEFAULT_MAX_PER_DECODER : Nat := 1

def DEFAULT_MAX_RESULTS : Nat := 50

/-- The base64 encoding of `x{1111111111111111111111111111}`, a
flag-shaped payload whose decoded text scores far below the default
`min_score`. -/
def c1Input : List Nat := pyStr "eHsxMTExMTExMTExMTExMTExMTExMTExMTExMTExfQ=="

def c1Flag : List Nat := pyStr "x{1111111111111111111111111111}"

set_option maxRecDepth 1000000

unseal Rat.add Rat.mul Rat.sub Rat.inv in
/-- **C1 (evaluation at the failing input).**  `_decode_text` never
consults `is_ctf_flag`: its filter keeps only candidates with
`abs_score ≥ min_score` and `delta ≥ min_delta`.  On the base64 encoding
of the flag-shaped payload `x{1111111111111111111111111111}` — decoded
by the base64 probe as the search's sole candidate, flag-shaped by
`is_ctf_flag`, scoring below the default `min_score` of 0.25 — the
default filtered result list is empty: the flag candidate is dropped,
with no bypass. -/
theorem c1_flag_bypass_missing :
    is_ctf_flag c1Flag = true ∧
      gather c1Input (utf8Encode c1Input) [base64Decoder] DEFAULT_CHAIN_DEPTH
          DEFAULT_MAX_RESULTS = [⟨["base64"], c1Flag⟩] ∧
      english_score (pyStrip c1Flag) < DEFAULT_MIN_SCORE ∧
      decode_text_filter c1Input [base64Decoder] DEFAULT_CHAIN_DEPTH DEFAULT_MIN_SCORE
          DEFAULT_MIN_DELTA false DEFAULT_TOP DEFAULT_RANK DEFAULT_MAX_PER_DECODER
          DEFAULT_MAX_RESULTS = [] ∧
      decode_text_filter c1Input [base64Decoder] DEFAULT_CHAIN_DEPTH DEFAULT_MIN_SCORE
          DEFAULT_MIN_DELTA true DEFAULT_TOP DEFAULT_RANK DEFAULT_MAX_PER_DECODER
          DEFAULT_MAX_RESULTS ≠ [] := by
  decide

end Svelo

namespace Svelo

/-! ## The gzip probe's exception structure -/

/-- The outcome of CPython `gzip.decompress` on a byte string, as the
probe's `try`/`except` clause discriminates it: success; a header or CRC
error (`BadGzipFile`, a subclass of `OSError`); a truncation error
(`EOFError`); or a corrupt-deflate-stream error (`zlib.error`, which is
neither an `OSError` nor an `EOFError` — raised e.g. for a valid gzip
header followed by a deflate block of reserved type). -/
inductive GzipOutcome
  | ok (out : List Nat)
  | osError
  | eofError
  | zlibError
deriving DecidableEq, Repr

/-- A Python exception escaping a probe. -/
inductive PyErr
  | zlibError
deriving DecidableEq, Repr

/-- `decoders._try_gzip`, parametric in the behaviour of the external
`gzip.decompress`: the `except (OSError, EOFError)` clause turns exactly
those two outcomes into the empty candidate list, while a `zlib.error`
outcome escapes the probe as an exception (`.error`). -/
def try_gzip (decompress : List Nat → GzipOutcome) (_text : List Nat)
    (data : List Nat) : Except PyErr (List DecodeResult) :=
  if data = [] then .ok []
  else
    match decompress data with
    | .ok out => .ok [{ name := "gzip", output := out }]
    | .osError => .ok []
    | .eofError => .ok []
    | .zlibError => .error .zlibError

/-- **C2 (evaluation of the gzip probe's catch clause).**  `_try_gzip`
silently absorbs `OSError` and `EOFError` outcomes of
`gzip.decompress`, but a `zlib.error` outcome — which CPython raises on
the 11-byte input `1f 8b 08 00 00 00 00 00 00 00 07` (a well-formed gzip
header followed by a deflate block of reserved type 3) — escapes as an
exception instead of yielding the empty list, so the probe is not total. -/
theorem c2_gzip_probe_not_total :
    (∀ (decompress : List Nat → GzipOutcome) (text data : List Nat),
        decompress data = .osError → try_gzip decompress text data ≠ .error .zlibError) ∧
      (∀ (decompress : List Nat → GzipOutcome) (text data : List Nat),
        decompress data = .eofError → try_gzip decompress text data ≠ .error .zlibError) ∧
      ∀ (decompress : List Nat → GzipOutcome) (text data : List Nat),
        decompress data = .zlibError → data ≠ [] →
          try_gzip decompress text data = .error .zlibError := by
  refine ⟨?_, ?_, ?_⟩
  · intro d text data h
    unfold try_gzip
    by_cases hdata : data = []
    · simp [hdata]
    · rw [if_neg hdata, h]
      simp
  · intro d text data h
    unfold try_gzip
    by_cases hdata : data = []
    · simp [hdata]
    · rw [if_neg hdata, h]
      simp
  · intro d text data h hdata
    unfold try_gzip
    rw [if_neg hdata, h]

/-- Witness for C2: a decompress behaviour that, like CPython, reports a
`zlib.error` on the corrupt-deflate input makes the probe raise. -/
theorem c2_gzip_probe_not_total_witness :
    try_gzip (fun _ => .zlibError) []
        [31, 139, 8, 0, 0, 0, 0, 0, 0, 0, 7] = .error .zlibError :=
  c2_gzip_probe_not_total.2.2 (fun _ => .zlibError) []
    [31, 139, 8, 0, 0, 0, 0, 0, 0, 0, 7] rfl (by decide)

end Svelo

namespace Svelo

/-! ## decoders.py: keyed ciphers -/

/-- `decoders._clean_key_alpha` (the source raises on an empty result;
the theorems below hypothesise non-emptiness instead). -/
def clean_key_alpha (key : List Nat) : List Nat :=
  (key.map pyToUpper).filter isAsciiUpper

/-- `decoders._alpha_index` of an uppercase letter, as an `Int` shift. -/
def alpha_index (c : Nat) : Int := (c : Int) - 65

/-- `decoders._vigenere_key_stream`, with the running alpha-position
index made explicit. -/
def keyStreamAux (shifts : List Int) : List Nat → Nat → List Int
  | [], _ => []
  | c :: rest, idx =>
      if pyIsAlpha c then
        shifts.getD (idx % shifts.length) 0 :: keyStreamAux shifts rest (idx + 1)
      else 0 :: keyStreamAux shifts rest idx

def vigenere_key_stream (text key : List Nat) : List Int :=
  keyStreamAux ((clean_key_alpha key).map alpha_index) text 0

/-- One character of `vigenere_encrypt`'s loop. -/
def vigenereChar (c : Nat) (s : Int) : Nat :=
  if pyIsAlpha c then shiftAlphaChar c s else c

def vigenere_encrypt (text key : List Nat) : List Nat :=
  List.zipWith vigenereChar text (vigenere_key_stream text key)

def vigenere_decrypt (text key : List Nat) : List Nat :=
  List.zipWith (fun c s => vigenereChar c (-s)) text (vigenere_key_stream text key)

/-- One character of `beaufort_encrypt`'s loop:
`chr((shift - idx) % 26 + base)`. -/
def beaufortChar (c : Nat) (s : Int) : Nat :=
  if pyIsAlpha c then
    let base : Int := if isAsciiUpper c then 65 else 97
    ((s - ((c : Int) - base)) % 26 + base).toNat
  else c

def beaufort_encrypt (text key : List Nat) : List Nat :=
  List.zipWith beaufortChar text (vigenere_key_stream text key)

/-- `decoders.beaufort_decrypt` is `beaufort_encrypt` (an involution). -/
def beaufort_decrypt (text key : List Nat) : List Nat :=
  beaufort_encrypt text key

/-- One character of `variant_beaufort_encrypt`:
`chr((idx - shift) % 26 + base)`. -/
def variantBeaufortEncChar (c : Nat) (s : Int) : Nat :=
  if pyIsAlpha c then
    let base : Int := if isAsciiUpper c then 65 else 97
    ((((c : Int) - base) - s) % 26 + base).toNat
  else c

/-- One character of `variant_beaufort_decrypt`:
`chr((shift + idx) % 26 + base)`. -/
def variantBeaufortDecChar (c : Nat) (s : Int) : Nat :=
  if pyIsAlpha c then
    let base : Int := if isAsciiUpper c then 65 else 97
    ((s + ((c : Int) - base)) % 26 + base).toNat
  else c

def variant_beaufort_encrypt (text key : List Nat) : List Nat :=
  List.zipWith variantBeaufortEncChar text (vigenere_key_stream text key)

def variant_beaufort_decrypt (text key : List Nat) : List Nat :=
  List.zipWith variantBeaufortDecChar text (vigenere_key_stream text key)

/-- `decoders.autokey_encrypt`'s loop over the evolving key stream
(`none` models the `IndexError` Python would raise popping an empty
stream, which a non-empty key rules out). -/
def autokeyEncAux : List Nat → List Nat → Option (List Nat)
  | [], _ => some []
  | c :: rest, ks =>
      if pyIsAlpha c then
        match ks with
        | [] => none
        | s :: ktail =>
            (autokeyEncAux rest (ktail ++ [pyToUpper c])).map
              (shiftAlphaChar c (alpha_index s) :: ·)
      else (autokeyEncAux rest ks).map (c :: ·)

def autokey_encrypt (text key : List Nat) : Option (List Nat) :=
  autokeyEncAux text (clean_key_alpha key)

/-- `decoders.autokey_decrypt`'s loop: the stream is extended with the
recovered plaintext letter. -/
def autokeyDecAux : List Nat → List Nat → Option (List Nat)
  | [], _ => some []
  | c :: rest, ks =>
      if pyIsAlpha c then
        match ks with
        | [] => none
        | s :: ktail =>
            let plain := shiftAlphaChar c (-(alpha_index s))
            (autokeyDecAux rest (ktail ++ [pyToUpper plain])).map (plain :: ·)
      else (autokeyDecAux rest ks).map (c :: ·)

def autokey_decrypt (text key : List Nat) : Option (List Nat) :=
  autokeyDecAux text (clean_key_alpha key)

/-- The keyed alphabet built by `keyword_substitution_*`, `_playfair_square`,
`_adfgx_square` and `_adfgvx_square`: first occurrences of the cleaned
key letters, then the unused letters of `base` in order. -/
def buildKeyedAlphabet (keyClean base : List Nat) : List Nat :=
  let head := dedupFirst keyClean
  head ++ base.filter fun ch => decide (ch ∉ head)

/-- The plain uppercase alphabet. -/
def azList : List Nat := List.range' 65 26

def keyword_alphabet (key : List Nat) : List Nat :=
  buildKeyedAlphabet (clean_key_alpha key) azList

/-- `decoders.keyword_substitution_encrypt`: the mapping sends the
`i`-th plain letter to `alphabet[i]`, lowercase via `.lower()`. -/
def keyword_substitution_encrypt (text key : List Nat) : List Nat :=
  let alphabet := keyword_alphabet key
  text.map fun c =>
    if isAsciiUpper c then alphabet.getD (c - 65) 0
    else if isAsciiLower c then alphabet.getD (c - 97) 0 + 32
    else c

/-- `decoders.keyword_substitution_decrypt`: the inverse dict maps
`alphabet[i]` back to the `i`-th plain letter. -/
def keyword_substitution_decrypt (text key : List Nat) : List Nat :=
  let alphabet := keyword_alphabet key
  text.map fun c =>
    if isAsciiUpper c then 65 + alphabet.indexOf c
    else if isAsciiLower c then 65 + alphabet.indexOf (c - 32) + 32
    else c

/-- Stable insertion into an ascending list: the new element goes after
every element it does not strictly precede. -/
def insertLe {α : Type} (le : α → α → Bool) (x : α) : List α → List α
  | [] => [x]
  | y :: ys => if le y x then y :: insertLe le x ys else x :: y :: ys

/-- A stable ascending sort (Python's `sorted`): elements inserted in
input order, each after its equals. -/
def sortLe {α : Type} (le : α → α → Bool) (l : List α) : List α :=
  l.foldl (fun acc x => insertLe le x acc) []

/-- `decoders._columnar_key_order`: indices of the cleaned key letters
sorted by `(letter, index)`. -/
def columnar_key_order (key : List Nat) : List Nat :=
  let keyClean := clean_key_alpha key
  let indexed := (List.range keyClean.length).zip keyClean
  (sortLe (fun a b => decide (a.2 < b.2 ∨ (a.2 = b.2 ∧ a.1 ≤ b.1))) indexed).map (·.1)

/-- Column `col` of the row-major `cols`-wide grid over `text`:
`text[row * cols + col]` for each full row. -/
def colAt (text : List Nat) (cols col rows : Nat) : List Nat :=
  (List.range rows).filterMap fun row => text[row * cols + col]?

/-- `decoders.columnar_encrypt`: read the grid's columns in key order
(`if col < len(grid[row])` is the `getElem?` guard). -/
def columnar_encrypt (text key : List Nat) : List Nat :=
  let order := columnar_key_order key
  let cols := order.length
  let rows := (text.length + cols - 1) / cols
  let grid := (List.range rows).map fun i => (text.drop (i * cols)).take cols
  order.flatMap fun col =>
    (List.range rows).filterMap fun row => (grid.getD row [])[col]?

/-- The column-assignment walk of `decoders.columnar_decrypt`: slice the
ciphertext into per-column segments following the key order. -/
def splitByOrder (lenOf : Nat → Nat) : List Nat → List Nat → List (Nat × List Nat)
  | [], _ => []
  | col :: order, rest =>
      (col, rest.take (lenOf col)) :: splitByOrder lenOf order (rest.drop (lenOf col))

/-- `decoders.columnar_decrypt`. -/
def columnar_decrypt (text key : List Nat) : List Nat :=
  let order := columnar_key_order key
  let cols := order.length
  if cols = 0 then text
  else
    let rows := (text.length + cols - 1) / cols
    let remainder0 := text.length % cols
    let remainder := if remainder0 = 0 then cols else remainder0
    let lenOf : Nat → Nat := fun idx => if idx < remainder then rows else rows - 1
    let assigned := splitByOrder lenOf order text
    (List.range rows).flatMap fun row =>
      (List.range cols).filterMap fun col => ((assigned.lookup col).getD [])[row]?

end Svelo

namespace Svelo

/-- The 25-letter Playfair alphabet (no `J`). -/
def playfairBase : List Nat := azList.filter fun c => decide (c ≠ 74)

/-- `decoders._playfair_square` flattened: the keyed 25-letter sequence
whose row `r`, column `c` entry sits at index `r * 5 + c`. -/
def playfair_letters (key : List Nat) : List Nat :=
  buildKeyedAlphabet ((clean_key_alpha key).map fun c => if c = 74 then 73 else c)
    playfairBase

/-- `square[r][c]`. -/
def pfSq (letters : List Nat) (r c : Nat) : Nat := letters.getD (r * 5 + c) 0

/-- `positions[ch] = (row, col)`. -/
def pfPos (letters : List Nat) (ch : Nat) : Nat × Nat :=
  (letters.indexOf ch / 5, letters.indexOf ch % 5)

/-- `decoders._playfair_digraphs`: uppercase-filter, fold `J` to `I`,
split into pairs inserting `X` between doubled letters and padding a
trailing single letter with `X` (88). -/
def playfairDigraphsAux : List Nat → List (Nat × Nat)
  | [] => []
  | [a] => [(a, 88)]
  | a :: b :: rest =>
      if a = b then (a, 88) :: playfairDigraphsAux (b :: rest)
      else (a, b) :: playfairDigraphsAux rest

def playfair_digraphs (text : List Nat) : List (Nat × Nat) :=
  playfairDigraphsAux
    (((text.map pyToUpper).filter isAsciiUpper).map fun c => if c = 74 then 73 else c)

/-- The Playfair encryption rule for one digraph. -/
def playfairEncPair (letters : List Nat) (a b : Nat) : List Nat :=
  let ⟨ra, ca⟩ := pfPos letters a
  let ⟨rb, cb⟩ := pfPos letters b
  if ra = rb then [pfSq letters ra ((ca + 1) % 5), pfSq letters rb ((cb + 1) % 5)]
  else if ca = cb then [pfSq letters ((ra + 1) % 5) ca, pfSq letters ((rb + 1) % 5) cb]
  else [pfSq letters ra cb, pfSq letters rb ca]

/-- `decoders.playfair_encrypt`. -/
def playfair_encrypt (text key : List Nat) : List Nat :=
  let letters := playfair_letters key
  (playfair_digraphs text).flatMap fun p => playfairEncPair letters p.1 p.2

/-- The Playfair decryption rule for one digraph (`-1 % 5` as `+4 % 5`). -/
def playfairDecPair (letters : List Nat) (a b : Nat) : List Nat :=
  let ⟨ra, ca⟩ := pfPos letters a
  let ⟨rb, cb⟩ := pfPos letters b
  if ra = rb then [pfSq letters ra ((ca + 4) % 5), pfSq letters rb ((cb + 4) % 5)]
  else if ca = cb then [pfSq letters ((ra + 4) % 5) ca, pfSq letters ((rb + 4) % 5) cb]
  else [pfSq letters ra cb, pfSq letters rb ca]

/-- Split an even-length letter run into consecutive pairs (the
`range(0, len(raw), 2)` loop of `playfair_decrypt`, after its trailing
`X` pad for odd length). -/
def pairsOf : List Nat → List (Nat × Nat)
  | [] => []
  | [a] => [(a, 88)]
  | a :: b :: rest => (a, b) :: pairsOf rest

/-- `decoders.playfair_decrypt`. -/
def playfair_decrypt (text key : List Nat) : List Nat :=
  let letters := playfair_letters key
  let raw := (text.map pyToUpper).filter isAsciiUpper
  (pairsOf raw).flatMap fun p => playfairDecPair letters p.1 p.2

/-! ### Hill cipher (2×2) -/

/-- `decoders._hill_matrix_from_key`: exactly four letters, as the
matrix `[[v0, v1], [v2, v3]]` of alphabet indices. -/
def hill_matrix_from_key (key : List Nat) : Option (Nat × Nat × Nat × Nat) :=
  match clean_key_alpha key with
  | [k0, k1, k2, k3] => some (k0 - 65, k1 - 65, k2 - 65, k3 - 65)
  | _ => none

/-- `decoders._modinv`: brute-force search for a multiplicative inverse
mod `modulus` in `1..modulus-1` (`none` models the `ValueError`). -/
def modinv (value modulus : Nat) : Option Nat :=
  (List.range' 1 (modulus - 1)).find? fun i => (value % modulus) * i % modulus == 1

/-- Hill encryption of one aligned digraph of indices. -/
def hillEncPair (m : Nat × Nat × Nat × Nat) (a b : Nat) : List Nat :=
  let ⟨m00, m01, m10, m11⟩ := m
  [(m00 * a + m01 * b) % 26 + 65, (m10 * a + m11 * b) % 26 + 65]

/-- Two-at-a-time walk over the letter run, padding a trailing letter
with `X` (index 23). -/
def hillPairs : List Nat → List (Nat × Nat)
  | [] => []
  | [a] => [(a, 23)]
  | a :: b :: rest => (a, b) :: hillPairs rest

/-- `decoders.hill_encrypt`. -/
def hill_encrypt (text key : List Nat) : Option (List Nat) :=
  (hill_matrix_from_key key).map fun m =>
    let raw := ((text.map pyToUpper).filter isAsciiUpper).map fun c => c - 65
    (hillPairs raw).flatMap fun p => hillEncPair m p.1 p.2

/-- `decoders.hill_decrypt`: the adjugate times the inverse determinant,
entries reduced mod 26 (Python `%` of the negated entries). -/
def hill_decrypt (text key : List Nat) : Option (List Nat) := do
  let ⟨m00, m01, m10, m11⟩ ← hill_matrix_from_key key
  let det := (((m00 * m11 : Int) - (m01 * m10 : Int)) % 26).toNat
  let invDet ← modinv det 26
  let i00 := m11 * invDet % 26
  let i01 := (((-(m01 : Int)) * invDet) % 26).toNat
  let i10 := (((-(m10 : Int)) * invDet) % 26).toNat
  let i11 := m00 * invDet % 26
  let raw := ((text.map pyToUpper).filter isAsciiUpper).map fun c => c - 65
  return (hillPairs raw).flatMap fun p =>
    [(i00 * p.1 + i01 * p.2) % 26 + 65, (i10 * p.1 + i11 * p.2) % 26 + 65]

end Svelo

namespace Svelo

/-! ### ADFGX / ADFGVX -/

/-- The symbol row/column labels `A D F G X`. -/
def adfgxSymbols : List Nat := pyStr "ADFGX"

/-- The symbol labels `A D F G V X`. -/
def adfgvxSymbols : List Nat := pyStr "ADFGVX"

/-- `decoders._adfgx_square`'s keyed 25-letter sequence (row-major). -/
def adfgx_letters (key : List Nat) : List Nat :=
  buildKeyedAlphabet ((clean_key_alpha key).map fun c => if c = 74 then 73 else c)
    playfairBase

/-- `coords[ch]` for a side-`n` square over `letters` with the given
symbol labels: the two symbols indexed by the letter's row and column. -/
def squareCoords (letters symbols : List Nat) (ch : Nat) : List Nat :=
  let i := letters.indexOf ch
  [symbols.getD (i / symbols.length) 0, symbols.getD (i % symbols.length) 0]

/-- The reverse square lookup `{coords: letter}`: the letter whose
coordinate digraph matches. -/
def squareUncoord (letters symbols : List Nat) (digraph : List Nat) : Option Nat :=
  letters.find? fun ch => squareCoords letters symbols ch == digraph

/-- `decoders.adfgx_encrypt`. -/
def adfgx_encrypt (text squareKey transKey : List Nat) : List Nat :=
  let letters := adfgx_letters squareKey
  let raw := ((text.map pyToUpper).filter isAsciiUpper).map fun c => if c = 74 then 73 else c
  let pairs := raw.flatMap (squareCoords letters adfgxSymbols)
  columnar_encrypt pairs transKey

/-- Consecutive digraphs of an even-length symbol string (the
`range(0, len(pairs), 2)` loop of `adfgx_decrypt`). -/
def digraphChunks : List Nat → List (List Nat)
  | a :: b :: rest => [a, b] :: digraphChunks rest
  | _ => []

/-- `decoders.adfgx_decrypt`: un-transpose, drop a trailing odd symbol,
then reverse-square each digraph (`none` models the `ValueError` on an
invalid digraph). -/
def adfgx_decrypt (text squareKey transKey : List Nat) : Option (List Nat) :=
  let letters := adfgx_letters squareKey
  let pairs := columnar_decrypt text transKey
  let pairs := if pairs.length % 2 ≠ 0 then pairs.dropLast else pairs
  (digraphChunks pairs).mapM (squareUncoord letters adfgxSymbols)

/-- The 36-character ADFGVX base alphabet `A..Z0..9`. -/
def adfgvxBase : List Nat := azList ++ List.range' 48 10

/-- `decoders._adfgvx_square`'s keyed 36-character sequence: the key is
filtered to alphanumerics (uppercased). The source raises `ValueError`
when that filter is empty; the theorems below hypothesise non-emptiness
of the filtered key instead. -/
def adfgvx_letters (key : List Nat) : List Nat :=
  buildKeyedAlphabet ((key.map pyToUpper).filter pyIsAlnum) adfgvxBase

/-- `decoders.adfgvx_encrypt`. -/
def adfgvx_encrypt (text squareKey transKey : List Nat) : List Nat :=
  let letters := adfgvx_letters squareKey
  let raw := (text.map pyToUpper).filter pyIsAlnum
  let pairs := raw.flatMap (squareCoords letters adfgvxSymbols)
  columnar_encrypt pairs transKey

/-- `decoders.adfgvx_decrypt`. -/
def adfgvx_decrypt (text squareKey transKey : List Nat) : Option (List Nat) :=
  let letters := adfgvx_letters squareKey
  let pairs := columnar_decrypt text transKey
  let pairs := if pairs.length % 2 ≠ 0 then pairs.dropLast else pairs
  (digraphChunks pairs).mapM (squareUncoord letters adfgvxSymbols)

end Svelo

namespace Svelo

/-! ## C7 lemmas: the Vigenère family -/

lemma pyIsAlpha_iff (c : Nat) :
    pyIsAlpha c = true ↔ (65 ≤ c ∧ c ≤ 90) ∨ (97 ≤ c ∧ c ≤ 122) := by
  unfold pyIsAlpha isAsciiUpper isAsciiLower
  simp [Bool.or_eq_true, Bool.and_eq_true]

lemma shiftAlphaChar_isAlpha (c : Nat) (s : Int) :
    pyIsAlpha (shiftAlphaChar c s) = pyIsAlpha c := by
  by_cases hl : 97 ≤ c ∧ c ≤ 122
  · have hv : shiftAlphaChar c s = (((c : Int) - 97 + s) % 26 + 97).toNat := by
      unfold shiftAlphaChar
      rw [if_pos hl]
    rw [(pyIsAlpha_iff _).2 (Or.inr (by rw [hv]; omega)), (pyIsAlpha_iff _).2 (Or.inr hl)]
  · by_cases hu : 65 ≤ c ∧ c ≤ 90
    · have hv : shiftAlphaChar c s = (((c : Int) - 65 + s) % 26 + 65).toNat := by
        unfold shiftAlphaChar
        rw [if_neg hl, if_pos hu]
      rw [(pyIsAlpha_iff _).2 (Or.inl (by rw [hv]; omega)), (pyIsAlpha_iff _).2 (Or.inl hu)]
    · have hv : shiftAlphaChar c s = c := by
        unfold shiftAlphaChar
        rw [if_neg hl, if_neg hu]
      rw [hv]

lemma keyStreamAux_zipWith (f : Nat → Int → Nat)
    (hα : ∀ c s, pyIsAlpha (f c s) = pyIsAlpha c) (shifts : List Int) :
    ∀ (text : List Nat) (idx : Nat),
      keyStreamAux shifts (List.zipWith f text (keyStreamAux shifts text idx)) idx =
        keyStreamAux shifts text idx := by
  intro text
  induction text with
  | nil => intro idx; rfl
  | cons c rest ih =>
      intro idx
      by_cases hca : pyIsAlpha c = true
      · simp only [keyStreamAux, hca, if_pos, List.zipWith_cons_cons, hα c]
        rw [ih (idx + 1)]
      · simp only [keyStreamAux, hca, if_neg, Bool.false_eq_true, if_false,
          List.zipWith_cons_cons, hα c]
        rw [ih idx]

lemma zipWith_stream_cancel (f g : Nat → Int → Nat) (hc : ∀ c s, g (f c s) s = c)
    (shifts : List Int) :
    ∀ (text : List Nat) (idx : Nat),
      List.zipWith g (List.zipWith f text (keyStreamAux shifts text idx))
        (keyStreamAux shifts text idx) = text := by
  intro text
  induction text with
  | nil => intro idx; rfl
  | cons c rest ih =>
      intro idx
      by_cases hca : pyIsAlpha c = true
      · simp only [keyStreamAux, hca, if_pos, List.zipWith_cons_cons, hc c]
        rw [ih (idx + 1)]
      · simp only [keyStreamAux, hca, Bool.false_eq_true, if_false,
          List.zipWith_cons_cons, hc c]
        rw [ih idx]

lemma vigenereChar_isAlpha (c : Nat) (s : Int) :
    pyIsAlpha (vigenereChar c s) = pyIsAlpha c := by
  unfold vigenereChar
  split_ifs
  · exact shiftAlphaChar_isAlpha c s
  · rfl

lemma vigenereChar_cancel (c : Nat) (s : Int) :
    vigenereChar (vigenereChar c s) (-s) = c := by
  unfold vigenereChar
  by_cases h : pyIsAlpha c = true
  · rw [if_pos h, if_pos (by rw [shiftAlphaChar_isAlpha]; exact h), shiftAlphaChar_cancel]
  · rw [if_neg h, if_neg h]

lemma vigenere_roundtrip (text key : List Nat) :
    vigenere_decrypt (vigenere_encrypt text key) key = text := by
  unfold vigenere_decrypt vigenere_encrypt vigenere_key_stream
  rw [keyStreamAux_zipWith vigenereChar vigenereChar_isAlpha _ text 0]
  exact zipWith_stream_cancel vigenereChar (fun c s => vigenereChar c (-s))
    vigenereChar_cancel _ text 0

lemma isAsciiUpper_true {c : Nat} (h : 65 ≤ c ∧ c ≤ 90) : isAsciiUpper c = true := by
  unfold isAsciiUpper
  simp only [Bool.and_eq_true, decide_eq_true_eq]
  omega

lemma isAsciiUpper_false {c : Nat} (h : ¬(65 ≤ c ∧ c ≤ 90)) : isAsciiUpper c = false := by
  unfold isAsciiUpper
  simp only [Bool.and_eq_true, Bool.and_eq_false_iff, decide_eq_true_eq, decide_eq_false_iff_not]
  omega

lemma beaufortChar_eq_upper (c : Nat) (s : Int) (hu : 65 ≤ c ∧ c ≤ 90) :
    beaufortChar c s = ((s - ((c : Int) - 65)) % 26 + 65).toNat := by
  simp only [beaufortChar, (pyIsAlpha_iff c).2 (Or.inl hu), if_true, isAsciiUpper_true hu]

lemma beaufortChar_eq_lower (c : Nat) (s : Int) (hl : 97 ≤ c ∧ c ≤ 122) :
    beaufortChar c s = ((s - ((c : Int) - 97)) % 26 + 97).toNat := by
  have hb : isAsciiUpper c = false := isAsciiUpper_false (by omega)
  simp only [beaufortChar, (pyIsAlpha_iff c).2 (Or.inr hl), if_true, hb,
    Bool.false_eq_true, if_false]

lemma beaufortChar_eq_other (c : Nat) (s : Int) (h : pyIsAlpha c = false) :
    beaufortChar c s = c := by
  simp only [beaufortChar, h, Bool.false_eq_true, if_false]

lemma beaufortChar_isAlpha (c : Nat) (s : Int) :
    pyIsAlpha (beaufortChar c s) = pyIsAlpha c := by
  by_cases h : pyIsAlpha c = true
  · rcases (pyIsAlpha_iff c).1 h with hu | hl
    · rw [beaufortChar_eq_upper c s hu, (pyIsAlpha_iff _).2 (Or.inl (by omega)), h]
    · rw [beaufortChar_eq_lower c s hl, (pyIsAlpha_iff _).2 (Or.inr (by omega)), h]
  · rw [beaufortChar_eq_other c s (by simpa using h)]

lemma beaufortChar_invol (c : Nat) (s : Int) :
    beaufortChar (beaufortChar c s) s = c := by
  by_cases h : pyIsAlpha c = true
  · rcases (pyIsAlpha_iff c).1 h with hu | hl
    · rw [beaufortChar_eq_upper c s hu]
      rw [beaufortChar_eq_upper _ s (by omega)]
      omega
    · rw [beaufortChar_eq_lower c s hl]
      rw [beaufortChar_eq_lower _ s (by omega)]
      omega
  · rw [beaufortChar_eq_other c s (by simpa using h),
      beaufortChar_eq_other c s (by simpa using h)]

lemma beaufort_roundtrip (text key : List Nat) :
    beaufort_decrypt (beaufort_encrypt text key) key = text := by
  unfold beaufort_decrypt beaufort_encrypt vigenere_key_stream
  rw [keyStreamAux_zipWith beaufortChar beaufortChar_isAlpha _ text 0]
  exact zipWith_stream_cancel beaufortChar beaufortChar beaufortChar_invol _ text 0

end Svelo

namespace Svelo

lemma variantBeaufortEncChar_eq_upper (c : Nat) (s : Int) (hu : 65 ≤ c ∧ c ≤ 90) :
    variantBeaufortEncChar c s = ((((c : Int) - 65) - s) % 26 + 65).toNat := by
  simp only [variantBeaufortEncChar, (pyIsAlpha_iff c).2 (Or.inl hu), if_true,
    isAsciiUpper_true hu]

lemma variantBeaufortEncChar_eq_lower (c : Nat) (s : Int) (hl : 97 ≤ c ∧ c ≤ 122) :
    variantBeaufortEncChar c s = ((((c : Int) - 97) - s) % 26 + 97).toNat := by
  have hb : isAsciiUpper c = false := isAsciiUpper_false (by omega)
  simp only [variantBeaufortEncChar, (pyIsAlpha_iff c).2 (Or.inr hl), if_true, hb,
    Bool.false_eq_true, if_false]

lemma variantBeaufortEncChar_eq_other (c : Nat) (s : Int) (h : pyIsAlpha c = false) :
    variantBeaufortEncChar c s = c := by
  simp only [variantBeaufortEncChar, h, Bool.false_eq_true, if_false]

lemma variantBeaufortDecChar_eq_upper (c : Nat) (s : Int) (hu : 65 ≤ c ∧ c ≤ 90) :
    variantBeaufortDecChar c s = ((s + ((c : Int) - 65)) % 26 + 65).toNat := by
  simp only [variantBeaufortDecChar, (pyIsAlpha_iff c).2 (Or.inl hu), if_true,
    isAsciiUpper_true hu]

lemma variantBeaufortDecChar_eq_lower (c : Nat) (s : Int) (hl : 97 ≤ c ∧ c ≤ 122) :
    variantBeaufortDecChar c s = ((s + ((c : Int) - 97)) % 26 + 97).toNat := by
  have hb : isAsciiUpper c = false := isAsciiUpper_false (by omega)
  simp only [variantBeaufortDecChar, (pyIsAlpha_iff c).2 (Or.inr hl), if_true, hb,
    Bool.false_eq_true, if_false]

lemma variantBeaufortDecChar_eq_other (c : Nat) (s : Int) (h : pyIsAlpha c = false) :
    variantBeaufortDecChar c s = c := by
  simp only [variantBeaufortDecChar, h, Bool.false_eq_true, if_false]

lemma variantBeaufortEncChar_isAlpha (c : Nat) (s : Int) :
    pyIsAlpha (variantBeaufortEncChar c s) = pyIsAlpha c := by
  by_cases h : pyIsAlpha c = true
  · rcases (pyIsAlpha_iff c).1 h with hu | hl
    · rw [variantBeaufortEncChar_eq_upper c s hu, (pyIsAlpha_iff _).2 (Or.inl (by omega)), h]
    · rw [variantBeaufortEncChar_eq_lower c s hl, (pyIsAlpha_iff _).2 (Or.inr (by omega)), h]
  · rw [variantBeaufortEncChar_eq_other c s (by simpa using h)]

lemma variantBeaufortChar_cancel (c : Nat) (s : Int) :
    variantBeaufortDecChar (variantBeaufortEncChar c s) s = c := by
  by_cases h : pyIsAlpha c = true
  · rcases (pyIsAlpha_iff c).1 h with hu | hl
    · rw [variantBeaufortEncChar_eq_upper c s hu]
      rw [variantBeaufortDecChar_eq_upper _ s (by omega)]
      omega
    · rw [variantBeaufortEncChar_eq_lower c s hl]
      rw [variantBeaufortDecChar_eq_lower _ s (by omega)]
      omega
  · rw [variantBeaufortEncChar_eq_other c s (by simpa using h),
      variantBeaufortDecChar_eq_other c s (by simpa using h)]

lemma variant_beaufort_roundtrip (text key : List Nat) :
    variant_beaufort_decrypt (variant_beaufort_encrypt text key) key = text := by
  unfold variant_beaufort_decrypt variant_beaufort_encrypt vigenere_key_stream
  rw [keyStreamAux_zipWith variantBeaufortEncChar variantBeaufortEncChar_isAlpha _ text 0]
  exact zipWith_stream_cancel variantBeaufortEncChar variantBeaufortDecChar
    variantBeaufortChar_cancel _ text 0

/-! ## C7 lemmas: autokey -/

lemma autokey_aux_roundtrip :
    ∀ (text ks : List Nat), ks ≠ [] →
      ∃ c, autokeyEncAux text ks = some c ∧ autokeyDecAux c ks = some text := by
  intro text
  induction text with
  | nil => exact fun ks _ => ⟨[], rfl, rfl⟩
  | cons c rest ih =>
      intro ks hks
      by_cases hca : pyIsAlpha c = true
      · match ks, hks with
        | s :: ktail, _ =>
            obtain ⟨out, henc, hdec⟩ := ih (ktail ++ [pyToUpper c]) (by simp)
            refine ⟨shiftAlphaChar c (alpha_index s) :: out, ?_, ?_⟩
            · simp only [autokeyEncAux, hca, if_pos, henc, Option.map_some']
            · have hα : pyIsAlpha (shiftAlphaChar c (alpha_index s)) = true := by
                rw [shiftAlphaChar_isAlpha]; exact hca
              have hplain : shiftAlphaChar (shiftAlphaChar c (alpha_index s))
                  (-(alpha_index s)) = c := shiftAlphaChar_cancel c _
              simp only [autokeyDecAux, hα, if_pos, hplain, hdec, Option.map_some']
      · obtain ⟨out, henc, hdec⟩ := ih ks hks
        refine ⟨c :: out, ?_, ?_⟩
        · simp only [autokeyEncAux, hca, Bool.false_eq_true, if_false, henc,
            Option.map_some']
        · simp only [autokeyDecAux, hca, Bool.false_eq_true, if_false, hdec,
            Option.map_some']

lemma autokey_roundtrip (text key : List Nat) (hk : clean_key_alpha key ≠ []) :
    ∃ c, autokey_encrypt text key = some c ∧ autokey_decrypt c key = some text :=
  autokey_aux_roundtrip text (clean_key_alpha key) hk

end Svelo

namespace Svelo

/-! ## C7 lemmas: keyed alphabets -/

lemma mem_dedupFirstAux {α : Type} [DecidableEq α] :
    ∀ (l seen : List α) (x : α),
      x ∈ dedupFirstAux seen l ↔ x ∈ l ∧ x ∉ seen := by
  intro l
  induction l with
  | nil => simp [dedupFirstAux]
  | cons y rest ih =>
      intro seen x
      by_cases hy : y ∈ seen
      · simp only [dedupFirstAux, if_pos hy, ih, List.mem_cons]
        constructor
        · exact fun ⟨h1, h2⟩ => ⟨Or.inr h1, h2⟩
        · rintro ⟨rfl | h1, h2⟩
          · exact absurd hy h2
          · exact ⟨h1, h2⟩
      · simp only [dedupFirstAux, if_neg hy, List.mem_cons, ih]
        constructor
        · rintro (rfl | ⟨h1, h2⟩)
          · exact ⟨Or.inl rfl, hy⟩
          · exact ⟨Or.inr h1, fun hs => h2 (Or.inr hs)⟩
        · rintro ⟨rfl | h1, h2⟩
          · exact Or.inl rfl
          · by_cases hxy : x = y
            · exact Or.inl hxy
            · exact Or.inr ⟨h1, by simp [hxy, h2]⟩

lemma nodup_dedupFirstAux {α : Type} [DecidableEq α] :
    ∀ (l seen : List α), (dedupFirstAux seen l).Nodup := by
  intro l
  induction l with
  | nil => exact fun _ => List.nodup_nil
  | cons y rest ih =>
      intro seen
      by_cases hy : y ∈ seen
      · simpa only [dedupFirstAux, if_pos hy] using ih seen
      · simp only [dedupFirstAux, if_neg hy, List.nodup_cons]
        refine ⟨fun hmem => ?_, ih _⟩
        exact ((mem_dedupFirstAux rest (y :: seen) y).1 hmem).2 (List.mem_cons_self y seen)

lemma mem_dedupFirst {α : Type} [DecidableEq α] (l : List α) (x : α) :
    x ∈ dedupFirst l ↔ x ∈ l := by
  simp [dedupFirst, mem_dedupFirstAux]

lemma nodup_dedupFirst {α : Type} [DecidableEq α] (l : List α) :
    (dedupFirst l).Nodup := nodup_dedupFirstAux l []

lemma buildKeyedAlphabet_nodup (kc base : List Nat) (hbase : base.Nodup) :
    (buildKeyedAlphabet kc base).Nodup := by
  unfold buildKeyedAlphabet
  refine List.Nodup.append (nodup_dedupFirst kc) (hbase.filter _) ?_
  intro x hx hxf
  rcases List.mem_filter.mp hxf with ⟨_, hpx⟩
  have : x ∉ dedupFirst kc := by simpa using hpx
  exact this hx

lemma mem_buildKeyedAlphabet (kc base : List Nat) (hsub : ∀ x ∈ kc, x ∈ base) (x : Nat) :
    x ∈ buildKeyedAlphabet kc base ↔ x ∈ base := by
  unfold buildKeyedAlphabet
  simp only [List.mem_append, List.mem_filter, decide_not, Bool.not_eq_eq_eq_not,
    Bool.not_false, decide_eq_true_eq]
  constructor
  · rintro (h | ⟨h, _⟩)
    · exact hsub x ((mem_dedupFirst kc x).1 h)
    · exact h
  · intro hx
    by_cases hh : x ∈ dedupFirst kc
    · exact Or.inl hh
    · exact Or.inr ⟨hx, by simpa using hh⟩

lemma buildKeyedAlphabet_perm (kc base : List Nat) (hbase : base.Nodup)
    (hsub : ∀ x ∈ kc, x ∈ base) : (buildKeyedAlphabet kc base).Perm base :=
  (List.perm_ext_iff_of_nodup (buildKeyedAlphabet_nodup kc base hbase) hbase).2
    (mem_buildKeyedAlphabet kc base hsub)

lemma getD_indexOf {l : List Nat} {a : Nat} (h : a ∈ l) :
    l.getD (l.indexOf a) 0 = a := by
  induction l with
  | nil => cases h
  | cons b rest ih =>
      by_cases hab : b = a
      · subst hab
        simp [List.indexOf_cons_self]
      · have hmem : a ∈ rest := by
          rcases List.mem_cons.mp h with h' | h'
          · exact absurd h'.symm hab
          · exact h'
        rw [List.indexOf_cons_ne _ (by simpa using hab)]
        simpa using ih hmem

lemma indexOf_getD {l : List Nat} (hn : l.Nodup) :
    ∀ {i : Nat}, i < l.length → l.indexOf (l.getD i 0) = i := by
  induction l with
  | nil => intro i hi; cases hi
  | cons b rest ih =>
      intro i hi
      match i with
      | 0 => simp [List.indexOf_cons_self]
      | j + 1 =>
          have hj : j < rest.length := by simpa using hi
          have hmem : rest.getD j 0 ∈ rest := by
            rw [List.getD_eq_getElem?_getD, List.getElem?_eq_getElem hj]
            exact List.getElem_mem hj
          have hne : b ≠ rest.getD j 0 := fun he =>
            (List.nodup_cons.mp hn).1 (he ▸ hmem)
          rw [show (b :: rest).getD (j + 1) 0 = rest.getD j 0 from rfl,
            List.indexOf_cons_ne _ (by simpa using hne), ih (List.nodup_cons.mp hn).2 hj]

lemma indexOf_lt_length_of_mem {l : List Nat} {a : Nat} (h : a ∈ l) :
    l.indexOf a < l.length := List.indexOf_lt_length.2 h

end Svelo

namespace Svelo

/-! ## C7 lemmas: keyword substitution -/

lemma getD_mem_of_lt {l : List Nat} {i : Nat} (h : i < l.length) : l.getD i 0 ∈ l := by
  rw [List.getD_eq_getElem?_getD, List.getElem?_eq_getElem h]
  exact List.getElem_mem h

lemma mem_azList (x : Nat) : x ∈ azList ↔ 65 ≤ x ∧ x ≤ 90 := by
  unfold azList
  rw [List.mem_range'_1]
  omega

lemma azList_nodup : azList.Nodup := List.nodup_range' _ _

lemma clean_key_alpha_sub_az (key : List Nat) : ∀ x ∈ clean_key_alpha key, x ∈ azList := by
  intro x hx
  rcases List.mem_filter.mp hx with ⟨_, hpx⟩
  rw [mem_azList]
  unfold isAsciiUpper at hpx
  simp only [Bool.and_eq_true, decide_eq_true_eq] at hpx
  exact hpx

lemma keyword_alphabet_perm (key : List Nat) : (keyword_alphabet key).Perm azList :=
  buildKeyedAlphabet_perm _ _ azList_nodup (clean_key_alpha_sub_az key)

lemma keyword_alphabet_length (key : List Nat) : (keyword_alphabet key).length = 26 :=
  (keyword_alphabet_perm key).length_eq.trans (by simp [azList])

lemma keyword_alphabet_nodup (key : List Nat) : (keyword_alphabet key).Nodup :=
  buildKeyedAlphabet_nodup _ _ azList_nodup

lemma keyword_alphabet_mem_upper (key : List Nat) {x : Nat}
    (hx : x ∈ keyword_alphabet key) : 65 ≤ x ∧ x ≤ 90 :=
  (mem_azList x).1 ((keyword_alphabet_perm key).mem_iff.1 hx)

lemma keyword_char_cancel (A : List Nat) (hA : A.Nodup) (hlen : A.length = 26)
    (hup : ∀ x ∈ A, 65 ≤ x ∧ x ≤ 90) (c : Nat) :
    (let e := if isAsciiUpper c = true then A.getD (c - 65) 0
      else if isAsciiLower c = true then A.getD (c - 97) 0 + 32 else c
     if isAsciiUpper e = true then 65 + A.indexOf e
     else if isAsciiLower e = true then 65 + A.indexOf (e - 32) + 32 else e) = c := by
  by_cases hcu : isAsciiUpper c = true
  · have hcu' : 65 ≤ c ∧ c ≤ 90 := by
      unfold isAsciiUpper at hcu
      simpa using hcu
    have hi : c - 65 < A.length := by omega
    have hmem := getD_mem_of_lt hi
    set e := A.getD (c - 65) 0 with hE
    have he := hup e hmem
    simp only [if_pos hcu]
    rw [if_pos (isAsciiUpper_true he), hE, indexOf_getD hA hi]
    omega
  · by_cases hcl : isAsciiLower c = true
    · have hcl' : 97 ≤ c ∧ c ≤ 122 := by
        unfold isAsciiLower at hcl
        simpa using hcl
      have hi : c - 97 < A.length := by omega
      have hmem := getD_mem_of_lt hi
      set e := A.getD (c - 97) 0 with hE
      have he := hup e hmem
      have hu32 : isAsciiUpper (e + 32) = false := isAsciiUpper_false (by omega)
      have hl32 : isAsciiLower (e + 32) = true := by
        unfold isAsciiLower
        simp only [Bool.and_eq_true, decide_eq_true_eq]
        omega
      simp only [if_neg hcu, if_pos hcl]
      rw [if_neg (show ¬(isAsciiUpper (e + 32) = true) by simp [hu32]), if_pos hl32,
        show e + 32 - 32 = e by omega, hE, indexOf_getD hA hi]
      omega
    · simp only [if_neg hcu, if_neg hcl]

lemma keyword_roundtrip (text key : List Nat) :
    keyword_substitution_decrypt (keyword_substitution_encrypt text key) key = text := by
  unfold keyword_substitution_decrypt keyword_substitution_encrypt
  rw [List.map_map]
  apply map_id_of_pointwise
  intro c
  exact keyword_char_cancel (keyword_alphabet key) (keyword_alphabet_nodup key)
    (keyword_alphabet_length key) (fun x hx => keyword_alphabet_mem_upper key hx) c

end Svelo

namespace Svelo

/-! ## C7 lemmas: columnar transposition -/

lemma insertLe_perm {α : Type} (le : α → α → Bool) (x : α) :
    ∀ l : List α, (insertLe le x l).Perm (x :: l) := by
  intro l
  induction l with
  | nil => exact List.Perm.refl _
  | cons y ys ih =>
      unfold insertLe
      split_ifs
      · exact ((ih.cons y).trans (List.Perm.swap x y ys)).symm.symm
      · exact List.Perm.refl _

lemma sortLe_perm {α : Type} (le : α → α → Bool) (l : List α) :
    (sortLe le l).Perm l := by
  suffices h : ∀ (l acc : List α),
      (l.foldl (fun acc x => insertLe le x acc) acc).Perm (acc ++ l) by
    simpa using h l []
  intro l
  induction l with
  | nil => simp
  | cons x xs ih =>
      intro acc
      simp only [List.foldl_cons]
      refine (ih (insertLe le x acc)).trans ?_
      refine (((insertLe_perm le x acc).append_right xs).trans ?_)
      simp [List.perm_middle.symm]

lemma columnar_key_order_perm (key : List Nat) :
    (columnar_key_order key).Perm (List.range (clean_key_alpha key).length) := by
  unfold columnar_key_order
  have hperm := sortLe_perm
    (fun a b : Nat × Nat => decide (a.2 < b.2 ∨ (a.2 = b.2 ∧ a.1 ≤ b.1)))
    ((List.range (clean_key_alpha key).length).zip (clean_key_alpha key))
  have := hperm.map Prod.fst
  rwa [List.map_fst_zip _ _ (by simp)] at this

lemma columnar_key_order_length (key : List Nat) :
    (columnar_key_order key).length = (clean_key_alpha key).length := by
  rw [(columnar_key_order_perm key).length_eq, List.length_range]

lemma columnar_key_order_nodup (key : List Nat) : (columnar_key_order key).Nodup :=
  ((columnar_key_order_perm key).nodup_iff).2 (List.nodup_range _)

lemma columnar_key_order_mem (key : List Nat) {c : Nat} (h : c ∈ columnar_key_order key) :
    c < (clean_key_alpha key).length := by
  have := (columnar_key_order_perm key).mem_iff.1 h
  simpa using this

lemma lt_length_iff_isSome {α : Type} (l : List α) (i : Nat) :
    i < l.length ↔ (l[i]?).isSome = true := by
  constructor
  · intro h
    rw [List.getElem?_eq_getElem h]
    rfl
  · intro h
    by_contra hc
    push_neg at hc
    rw [List.getElem?_eq_none hc] at h
    exact Bool.noConfusion h

lemma getElem?_filterMap_mono {α : Type} (l : List α) (g : Nat → Nat)
    (hg : ∀ i j, i < j → g i < g j) :
    ∀ (m row : Nat),
      ((List.range m).filterMap fun i => l[g i]?)[row]? =
        if row < m then l[g row]? else none := by
  intro m
  induction m with
  | zero => intro row; simp
  | succ m ih =>
      intro row
      rw [List.range_succ, List.filterMap_append]
      by_cases hrow : row < m + 1
      · by_cases hrm : row < m
        · rw [if_pos hrow]
          by_cases hsome : (l[g row]?).isSome
          · have hlen : row < ((List.range m).filterMap fun i => l[g i]?).length := by
              rw [lt_length_iff_isSome, ih row, if_pos hrm]
              exact hsome
            rw [List.getElem?_append_left hlen, ih row, if_pos hrm]
          · have hnone : l[g row]? = none := Option.not_isSome_iff_eq_none.1 hsome
            have hmnone : l[g m]? = none := by
              rcases Nat.lt_or_ge (g m) l.length with hlt | hge
              · exfalso
                have : g row < g m := hg row m hrm
                have : g row < l.length := lt_trans this hlt
                rw [List.getElem?_eq_getElem this] at hnone
                exact Option.noConfusion hnone
              · exact List.getElem?_eq_none hge
            have h1 : ((List.range m).filterMap fun i => l[g i]?)[row]? = none := by
              rw [ih row, if_pos hrm]
              exact hnone
            have hlen : ((List.range m).filterMap fun i => l[g i]?).length ≤ row := by
              by_contra hcon
              push_neg at hcon
              rw [lt_length_iff_isSome, h1] at hcon
              exact Bool.noConfusion hcon
            simp only [List.filterMap_cons, hmnone, List.filterMap_nil]
            rw [List.getElem?_eq_none (by simpa using hlen), hnone]
        · have hrowm : row = m := by omega
          subst hrowm
          rw [if_pos hrow]
          by_cases hsome : (l[g row]?).isSome
          · have hall : ∀ i < row, (l[g i]?).isSome := by
              intro i hi
              rcases Nat.lt_or_ge (g row) l.length with hlt | hge
              · rw [List.getElem?_eq_getElem (lt_trans (hg i row hi) hlt)]
                rfl
              · rw [List.getElem?_eq_none hge] at hsome
                exact Bool.noConfusion hsome
            have hlen : ((List.range row).filterMap fun i => l[g i]?).length = row := by
              have : ∀ i ∈ List.range row, ((fun i => l[g i]?) i).isSome := by
                intro i hi
                exact hall i (List.mem_range.1 hi)
              rw [List.length_filterMap_eq_countP, List.countP_eq_length.2 this,
                List.length_range]
            rw [List.getElem?_append_right (by omega), hlen]
            simp [List.filterMap_cons]
            cases h : l[g row]? with
            | none => rw [h] at hsome; exact Bool.noConfusion hsome
            | some v => simp
          · have hnone : l[g row]? = none := Option.not_isSome_iff_eq_none.1 hsome
            have hlen : ((List.range row).filterMap fun i => l[g i]?).length ≤ row :=
              le_trans (List.length_filterMap_le _ _) (by simp)
            simp only [List.filterMap_cons, hnone, List.filterMap_nil]
            rw [List.getElem?_eq_none (by simpa using hlen)]
      · rw [if_neg hrow]
        rw [← List.filterMap_append, ← List.range_succ]
        apply List.getElem?_eq_none
        have hlen : ((List.range (m + 1)).filterMap fun i => l[g i]?).length ≤ m + 1 :=
          le_trans (List.length_filterMap_le _ _) (by simp)
        simp only [Nat.succ_eq_add_one]
        omega

end Svelo

namespace Svelo

/-- Length characterisation of a monotone-index `filterMap`. -/
lemma length_filterMap_mono_iff {α : Type} (l : List α) (g : Nat → Nat)
    (hg : ∀ i j, i < j → g i < g j) (m : Nat) (row : Nat) :
    row < ((List.range m).filterMap fun i => l[g i]?).length ↔
      row < m ∧ g row < l.length := by
  rw [lt_length_iff_isSome, getElem?_filterMap_mono l g hg m row]
  by_cases hrow : row < m
  · rw [if_pos hrow]
    constructor
    · intro h
      refine ⟨hrow, ?_⟩
      by_contra hge
      push_neg at hge
      rw [List.getElem?_eq_none hge] at h
      exact Bool.noConfusion h
    · intro ⟨_, h⟩
      rw [List.getElem?_eq_getElem h]
      rfl
  · rw [if_neg hrow]
    simp [hrow]

/-- The ceiling division `(n + cols - 1) / cols` in terms of `n / cols`
and `n % cols`. -/
lemma ceil_div_eq (n cols : Nat) (h : 0 < cols) :
    (n + cols - 1) / cols = n / cols + (if n % cols = 0 then 0 else 1) := by
  have hqr := Nat.div_add_mod n cols
  set q := n / cols with hq
  set r := n % cols with hr
  have hrlt : r < cols := Nat.mod_lt _ h
  by_cases hr0 : r = 0
  · rw [if_pos hr0]
    have h1 : n + cols - 1 = (cols - 1) + cols * q := by omega
    rw [h1, Nat.add_mul_div_left _ _ h, Nat.div_eq_of_lt (by omega)]
    omega
  · rw [if_neg hr0]
    have hexp : cols * (q + 1) = cols * q + cols := by ring
    have h1 : n + cols - 1 = (r - 1) + cols * (q + 1) := by omega
    rw [h1, Nat.add_mul_div_left _ _ h, Nat.div_eq_of_lt (by omega)]
    omega

/-- The length of column `col`: `rows` for the first `remainder` columns
and `rows - 1` for the rest — exactly the `col_lengths` entry
`columnar_decrypt` computes. -/
lemma colAt_length (text : List Nat) (cols col : Nat) (h : 0 < cols) (hcol : col < cols) :
    (colAt text cols col ((text.length + cols - 1) / cols)).length =
      (if col < (if text.length % cols = 0 then cols else text.length % cols)
       then (text.length + cols - 1) / cols
       else (text.length + cols - 1) / cols - 1) := by
  have hg : ∀ i j, i < j → i * cols + col < j * cols + col := by
    intro i j hij
    have := Nat.mul_lt_mul_of_lt_of_le hij (le_refl cols) h
    omega
  have hchar := fun row => length_filterMap_mono_iff text (fun row => row * cols + col)
    hg ((text.length + cols - 1) / cols) row
  set n := text.length with hn
  have hqr := Nat.div_add_mod n cols
  set q := n / cols with hq
  set r := n % cols with hr
  have hrlt : r < cols := Nat.mod_lt _ h
  have hcomm : cols * q = q * cols := Nat.mul_comm cols q
  have hrows : (n + cols - 1) / cols = q + (if r = 0 then 0 else 1) := ceil_div_eq n cols h
  set rows := (n + cols - 1) / cols with hrowsdef
  set L := (colAt text cols col rows).length with hL
  have hchar' : ∀ row, row < L ↔ row < rows ∧ row * cols + col < n := hchar
  by_cases hr0 : r = 0
  · rw [if_pos hr0] at hrows
    have hrem : (if r = 0 then cols else r) = cols := if_pos hr0
    rw [hrem, if_pos hcol]
    have hrowsq : rows = q := by omega
    have hle : L ≤ q := by
      by_contra hcon
      push_neg at hcon
      obtain ⟨h1, h2⟩ := (hchar' q).1 (by omega)
      omega
    have hge : q ≤ L := by
      rcases Nat.eq_zero_or_pos q with hq0 | hqpos
      · omega
      · have hexp : (q - 1) * cols + cols = q * cols := by
          have := Nat.sub_one_mul q cols
          have hcq : cols ≤ q * cols := Nat.le_mul_of_pos_left cols hqpos
          omega
        have := (hchar' (q - 1)).2 ⟨by omega, by omega⟩
        omega
    omega
  · rw [if_neg hr0] at hrows
    have hrem : (if r = 0 then cols else r) = r := if_neg hr0
    rw [hrem]
    have hrowsq : rows = q + 1 := by omega
    by_cases hcr : col < r
    · rw [if_pos hcr]
      have hexp : q * cols + cols = (q + 1) * cols := by ring
      have hle : L ≤ q + 1 := by
        by_contra hcon
        push_neg at hcon
        obtain ⟨h1, h2⟩ := (hchar' (q + 1)).1 (by omega)
        omega
      have hge : q + 1 ≤ L := by
        have := (hchar' q).2 ⟨by omega, by omega⟩
        omega
      omega
    · rw [if_neg hcr]
      have hle : L ≤ q := by
        by_contra hcon
        push_neg at hcon
        obtain ⟨h1, h2⟩ := (hchar' q).1 (by omega)
        omega
      have hge : q ≤ L := by
        rcases Nat.eq_zero_or_pos q with hq0 | hqpos
        · omega
        · have hexp : (q - 1) * cols + cols = q * cols := by
            have := Nat.sub_one_mul q cols
            have hcq : cols ≤ q * cols := Nat.le_mul_of_pos_left cols hqpos
            omega
          have := (hchar' (q - 1)).2 ⟨by omega, by omega⟩
          omega
      omega

end Svelo

namespace Svelo

/-- Pointwise-on-members congruence for `flatMap`. -/
lemma flatMap_congr_mem {α β : Type} {l : List α} {f g : α → List β}
    (h : ∀ x ∈ l, f x = g x) : l.flatMap f = l.flatMap g := by
  induction l with
  | nil => rfl
  | cons a as ih =>
      simp only [List.flatMap_cons]
      rw [h a (by simp), ih fun x hx => h x (by simp [hx])]

/-- Reading `l[i]?` for `i < m` in order collects exactly `l.take m`. -/
lemma filterMap_getElem_range (l : List Nat) (m : Nat) :
    ((List.range m).filterMap fun i => l[i]?) = l.take m := by
  induction m with
  | zero => simp
  | succ m ih =>
      rw [List.range_succ, List.filterMap_append, ih, List.take_succ]
      cases h : l[m]? <;> simp [List.filterMap_cons, h]

/-- `columnar_encrypt`'s grid walk reads off exactly the columns `colAt`. -/
lemma columnar_encrypt_eq_flatMap (text key : List Nat) :
    columnar_encrypt text key =
      (columnar_key_order key).flatMap fun col =>
        colAt text (columnar_key_order key).length col
          ((text.length + (columnar_key_order key).length - 1) /
            (columnar_key_order key).length) := by
  simp only [columnar_encrypt, colAt]
  apply flatMap_congr_mem
  intro col hcolmem
  have hcollt : col < (columnar_key_order key).length := by
    have h1 := columnar_key_order_mem key hcolmem
    have h2 := columnar_key_order_length key
    omega
  apply List.filterMap_congr
  intro row hrow
  rw [List.mem_range] at hrow
  rw [List.getD_eq_getElem?_getD, List.getElem?_map, List.getElem?_range hrow]
  simp only [Option.map_some', Option.getD_some]
  rw [List.getElem?_take, if_pos hcollt, List.getElem?_drop]

/-- Sum of a constant over `range`. -/
lemma sum_map_const_range (m a : Nat) :
    ((List.range m).map fun _ => a).sum = m * a := by
  induction m with
  | zero => simp
  | succ m ih =>
      rw [List.range_succ, List.map_append, List.sum_append, ih]
      simp only [List.map_cons, List.map_nil, List.sum_cons, List.sum_nil]
      have he : (m + 1) * a = m * a + a := by ring
      omega

/-- Sum of a two-valued step function over `range`. -/
lemma sum_map_ite_lt (a b k m : Nat) (hk : k ≤ m) :
    ((List.range m).map fun i => if i < k then a else b).sum =
      k * a + (m - k) * b := by
  induction m with
  | zero =>
      have hk0 : k = 0 := by omega
      subst hk0
      simp
  | succ m ih =>
      rw [List.range_succ, List.map_append, List.sum_append]
      by_cases hkm : k ≤ m
      · rw [ih hkm]
        simp only [List.map_cons, List.map_nil, List.sum_cons, List.sum_nil]
        rw [if_neg (by omega)]
        have h1 : m + 1 - k = (m - k) + 1 := by omega
        rw [h1, Nat.succ_mul]
        omega
      · have hk1 : k = m + 1 := by omega
        subst hk1
        have hall : ((List.range m).map fun i => if i < m + 1 then a else b) =
            (List.range m).map fun _ => a := by
          apply List.map_congr_left
          intro i hi
          rw [List.mem_range] at hi
          exact if_pos (by omega)
        rw [hall, sum_map_const_range]
        simp only [List.map_cons, List.map_nil, List.sum_cons, List.sum_nil]
        rw [if_pos (by omega)]
        have he : (m + 1) * a = m * a + a := by ring
        simp only [Nat.sub_self, Nat.zero_mul, Nat.add_zero]
        omega

/-- The ciphertext of a columnar transposition has the plaintext's length. -/
lemma columnar_encrypt_length (text key : List Nat)
    (hne : columnar_key_order key ≠ []) :
    (columnar_encrypt text key).length = text.length := by
  have hcols : 0 < (columnar_key_order key).length := List.length_pos.2 hne
  rw [columnar_encrypt_eq_flatMap, List.length_flatMap]
  simp only [Function.comp_def]
  have hmap : ((columnar_key_order key).map fun col =>
      (colAt text (columnar_key_order key).length col
        ((text.length + (columnar_key_order key).length - 1) /
          (columnar_key_order key).length)).length) =
      (columnar_key_order key).map fun col =>
        if col < (if text.length % (columnar_key_order key).length = 0
                  then (columnar_key_order key).length
                  else text.length % (columnar_key_order key).length)
        then (text.length + (columnar_key_order key).length - 1) /
              (columnar_key_order key).length
        else (text.length + (columnar_key_order key).length - 1) /
              (columnar_key_order key).length - 1 := by
    apply List.map_congr_left
    intro col hcolmem
    have hcollt : col < (columnar_key_order key).length := by
      have h1 := columnar_key_order_mem key hcolmem
      have h2 := columnar_key_order_length key
      omega
    exact colAt_length text _ col hcols hcollt
  rw [hmap]
  have hperm : (columnar_key_order key).Perm
      (List.range (columnar_key_order key).length) := by
    have h1 := columnar_key_order_perm key
    have h2 := columnar_key_order_length key
    rw [h2]
    exact h1
  rw [(hperm.map _).sum_eq]
  set cols := (columnar_key_order key).length with hcolsdef
  set n := text.length with hn
  have hqr := Nat.div_add_mod n cols
  set q := n / cols with hq
  set r := n % cols with hr
  have hrlt : r < cols := Nat.mod_lt _ hcols
  have hrows : (n + cols - 1) / cols = q + (if r = 0 then 0 else 1) :=
    ceil_div_eq n cols hcols
  set rows := (n + cols - 1) / cols with hrowsdef
  have hrem : (if r = 0 then cols else r) ≤ cols := by
    by_cases hr0 : r = 0 <;> simp [hr0] <;> omega
  rw [sum_map_ite_lt rows (rows - 1) _ cols hrem]
  by_cases hr0 : r = 0
  · rw [if_pos hr0] at hrows
    rw [if_pos hr0]
    have hrq : rows = q := by omega
    rw [hrq]
    have hcm : cols * q = q * cols := Nat.mul_comm cols q
    simp only [Nat.sub_self, Nat.zero_mul, Nat.add_zero]
    omega
  · rw [if_neg hr0] at hrows
    rw [if_neg hr0]
    have hrq : rows = q + 1 := by omega
    rw [hrq]
    have h1 : r * (q + 1) = r * q + r := by ring
    have h2 : q + 1 - 1 = q := Nat.add_sub_cancel q 1
    rw [h2]
    have h3 : (cols - r) * q = cols * q - r * q := Nat.sub_mul cols r q
    have h4 : r * q ≤ cols * q := Nat.mul_le_mul_right q (le_of_lt hrlt)
    have hcm : cols * q = q * cols := Nat.mul_comm cols q
    omega

/-- The slicing walk of `columnar_decrypt` recovers each flat-mapped
column under its key index, given the per-column lengths it expects. -/
lemma splitByOrder_lookup (lenOf : Nat → Nat) (colFn : Nat → List Nat) :
    ∀ (order : List Nat), order.Nodup →
      (∀ c ∈ order, (colFn c).length = lenOf c) →
      ∀ c ∈ order,
        (splitByOrder lenOf order (order.flatMap colFn)).lookup c =
          some (colFn c) := by
  intro order
  induction order with
  | nil => intro _ _ c hc; cases hc
  | cons a as ih =>
      intro hnd hlen c hc
      simp only [List.flatMap_cons, splitByOrder]
      have hta : ((colFn a ++ as.flatMap colFn).take (lenOf a)) = colFn a := by
        rw [← hlen a (by simp)]
        exact List.take_left _ _
      have hda : ((colFn a ++ as.flatMap colFn).drop (lenOf a)) = as.flatMap colFn := by
        rw [← hlen a (by simp)]
        exact List.drop_left _ _
      rw [hta, hda]
      rcases List.mem_cons.1 hc with hca | hcas
      · subst hca
        simp [List.lookup]
      · have hne : c ≠ a := by
          rintro rfl
          exact (List.nodup_cons.1 hnd).1 hcas
        have hbeq : (c == a) = false := by simp [hne]
        simp only [List.lookup, hbeq]
        exact ih (List.nodup_cons.1 hnd).2 (fun x hx => hlen x (by simp [hx])) c hcas

/-- Row-major interleaving of positional reads is a prefix of the text. -/
lemma interleave_rows (text : List Nat) (cols : Nat) (rows : Nat) :
    ((List.range rows).flatMap fun row =>
      (List.range cols).filterMap fun col => text[row * cols + col]?) =
    text.take (rows * cols) := by
  induction rows with
  | zero => simp
  | succ m ih =>
      rw [List.range_succ, List.flatMap_append, ih]
      simp only [List.flatMap_cons, List.flatMap_nil, List.append_nil]
      have hinner : ((List.range cols).filterMap fun col => text[m * cols + col]?) =
          (text.drop (m * cols)).take cols := by
        rw [← filterMap_getElem_range (text.drop (m * cols)) cols]
        apply List.filterMap_congr
        intro col _
        rw [List.getElem?_drop]
      rw [hinner, ← List.take_add]
      congr 1
      rw [Nat.succ_mul]

/-- Ceiling division clears the dividend. -/
lemma ceil_mul_ge (n cols : Nat) (h : 0 < cols) :
    n ≤ ((n + cols - 1) / cols) * cols := by
  have hqr := Nat.div_add_mod n cols
  have hrows := ceil_div_eq n cols h
  set q := n / cols with hq
  set r := n % cols with hr
  have hrlt : r < cols := Nat.mod_lt _ h
  rw [hrows]
  by_cases hr0 : r = 0
  · rw [if_pos hr0]
    have he : (q + 0) * cols = cols * q := by ring
    omega
  · rw [if_neg hr0]
    have he : (q + 1) * cols = cols * q + cols := by ring
    omega

/-- The reassembly loop of `columnar_decrypt` applied to the exact column
decomposition of `text` restores `text`. -/
lemma decrypt_body_eq (text : List Nat) (cols : Nat) (h : 0 < cols)
    (order : List Nat) (horder : order.Nodup)
    (hperm : order.Perm (List.range cols)) :
    ((List.range ((text.length + cols - 1) / cols)).flatMap fun row =>
      (List.range cols).filterMap fun col =>
        (((splitByOrder
            (fun idx => if idx < (if text.length % cols = 0 then cols
                                  else text.length % cols)
                        then (text.length + cols - 1) / cols
                        else (text.length + cols - 1) / cols - 1)
            order
            (order.flatMap fun col =>
              colAt text cols col ((text.length + cols - 1) / cols))).lookup
              col).getD [])[row]?) = text := by
  have hlookup : ∀ c, c < cols →
      (splitByOrder
          (fun idx => if idx < (if text.length % cols = 0 then cols
                                else text.length % cols)
                      then (text.length + cols - 1) / cols
                      else (text.length + cols - 1) / cols - 1)
          order
          (order.flatMap fun col =>
            colAt text cols col ((text.length + cols - 1) / cols))).lookup c =
        some (colAt text cols c ((text.length + cols - 1) / cols)) := by
    intro c hc
    have hcmem : c ∈ order := by
      rw [hperm.mem_iff, List.mem_range]
      exact hc
    exact splitByOrder_lookup _ _ order horder
      (fun x hx => by
        have hxlt : x < cols := by
          have := hperm.mem_iff.1 hx
          rw [List.mem_range] at this
          exact this
        exact colAt_length text cols x h hxlt) c hcmem
  trans ((List.range ((text.length + cols - 1) / cols)).flatMap fun row =>
      (List.range cols).filterMap fun col => text[row * cols + col]?)
  · apply flatMap_congr_mem
    intro row hrow
    rw [List.mem_range] at hrow
    apply List.filterMap_congr
    intro col hcol
    rw [List.mem_range] at hcol
    rw [hlookup col hcol]
    simp only [Option.getD_some, colAt]
    rw [getElem?_filterMap_mono text (fun i => i * cols + col)
      (fun i j hij => by
        show i * cols + col < j * cols + col
        have := Nat.mul_lt_mul_of_lt_of_le hij (le_refl cols) h
        omega) _ row]
    rw [if_pos hrow]
  · rw [interleave_rows text cols]
    exact List.take_of_length_le (ceil_mul_ge text.length cols h)

/-- Columnar transposition round-trips whenever the key has a letter. -/
lemma columnar_roundtrip (text key : List Nat)
    (hne : columnar_key_order key ≠ []) :
    columnar_decrypt (columnar_encrypt text key) key = text := by
  have hcols : 0 < (columnar_key_order key).length := List.length_pos.2 hne
  have hlen : (columnar_encrypt text key).length = text.length :=
    columnar_encrypt_length text key hne
  simp only [columnar_decrypt]
  rw [if_neg (by omega), hlen, columnar_encrypt_eq_flatMap]
  have hperm : (columnar_key_order key).Perm
      (List.range (columnar_key_order key).length) := by
    have h1 := columnar_key_order_perm key
    have h2 := columnar_key_order_length key
    rw [h2]
    exact h1
  exact decrypt_body_eq text (columnar_key_order key).length hcols
    (columnar_key_order key) (columnar_key_order_nodup key) hperm

end Svelo

namespace Svelo

/-! ## C7 lemmas: Playfair -/

lemma playfairBase_length : playfairBase.length = 25 := by decide

lemma playfairBase_nodup : playfairBase.Nodup := azList_nodup.filter _

lemma mem_playfairBase (x : Nat) :
    x ∈ playfairBase ↔ (65 ≤ x ∧ x ≤ 90) ∧ x ≠ 74 := by
  simp [playfairBase, List.mem_filter, mem_azList]

lemma playfair_letters_perm (key : List Nat) :
    (playfair_letters key).Perm playfairBase := by
  refine buildKeyedAlphabet_perm _ _ playfairBase_nodup ?_
  intro x hx
  rw [List.mem_map] at hx
  obtain ⟨c, hc, rfl⟩ := hx
  have hcz := clean_key_alpha_sub_az key c hc
  rw [mem_azList] at hcz
  rw [mem_playfairBase]
  by_cases h74 : c = 74
  · subst h74
    decide
  · rw [if_neg h74]
    exact ⟨⟨hcz.1, hcz.2⟩, h74⟩

lemma playfair_letters_nodup (key : List Nat) : (playfair_letters key).Nodup :=
  (playfair_letters_perm key).nodup_iff.2 playfairBase_nodup

lemma playfair_letters_length (key : List Nat) :
    (playfair_letters key).length = 25 := by
  rw [(playfair_letters_perm key).length_eq, playfairBase_length]

lemma mem_playfair_letters (key : List Nat) (x : Nat) :
    x ∈ playfair_letters key ↔ (65 ≤ x ∧ x ≤ 90) ∧ x ≠ 74 := by
  rw [(playfair_letters_perm key).mem_iff, mem_playfairBase]

lemma pfSq_mem (letters : List Nat) (hlen : letters.length = 25) (r c : Nat)
    (hr : r < 5) (hc : c < 5) : pfSq letters r c ∈ letters := by
  unfold pfSq
  apply getD_mem_of_lt
  omega

lemma pfPos_of_sq (letters : List Nat) (hnd : letters.Nodup)
    (hlen : letters.length = 25) {r c : Nat} (hr : r < 5) (hc : c < 5) :
    pfPos letters (pfSq letters r c) = (r, c) := by
  unfold pfPos pfSq
  rw [indexOf_getD hnd (by omega)]
  simp only [Prod.mk.injEq]
  constructor <;> omega

lemma pfSq_of_pos (letters : List Nat) (hnd : letters.Nodup)
    (hlen : letters.length = 25) {ch : Nat} (hch : ch ∈ letters) :
    pfSq letters (letters.indexOf ch / 5) (letters.indexOf ch % 5) = ch := by
  unfold pfSq
  have hi : letters.indexOf ch / 5 * 5 + letters.indexOf ch % 5 =
      letters.indexOf ch := by omega
  rw [hi]
  exact getD_indexOf hch

lemma pfPos_lt (letters : List Nat) (hlen : letters.length = 25) {ch : Nat}
    (hch : ch ∈ letters) :
    letters.indexOf ch / 5 < 5 ∧ letters.indexOf ch % 5 < 5 := by
  have := indexOf_lt_length_of_mem hch
  omega

/-- One Playfair digraph inverts: the encryption of a distinct pair is a
two-letter block of the square that decrypts back to the pair. -/
lemma playfair_pair_inv (letters : List Nat) (hnd : letters.Nodup)
    (hlen : letters.length = 25) (a b : Nat) (ha : a ∈ letters)
    (hb : b ∈ letters) (hab : a ≠ b) :
    ∃ x y, playfairEncPair letters a b = [x, y] ∧ x ∈ letters ∧ y ∈ letters ∧
      playfairDecPair letters x y = [a, b] := by
  obtain ⟨hra, hca⟩ := pfPos_lt letters hlen ha
  obtain ⟨hrb, hcb⟩ := pfPos_lt letters hlen hb
  have hne : letters.indexOf a ≠ letters.indexOf b := by
    intro he
    apply hab
    have h1 := getD_indexOf ha
    have h2 := getD_indexOf hb
    rw [← h1, ← h2, he]
  simp only [playfairEncPair, playfairDecPair, pfPos]
  by_cases hrr : letters.indexOf a / 5 = letters.indexOf b / 5
  · refine ⟨pfSq letters (letters.indexOf a / 5) ((letters.indexOf a % 5 + 1) % 5),
      pfSq letters (letters.indexOf b / 5) ((letters.indexOf b % 5 + 1) % 5),
      by rw [if_pos hrr], pfSq_mem letters hlen _ _ hra (by omega),
      pfSq_mem letters hlen _ _ hrb (by omega), ?_⟩
    have hx := pfPos_of_sq letters hnd hlen hra
      (c := (letters.indexOf a % 5 + 1) % 5) (by omega)
    have hy := pfPos_of_sq letters hnd hlen hrb
      (c := (letters.indexOf b % 5 + 1) % 5) (by omega)
    unfold pfPos at hx hy
    rw [Prod.mk.injEq] at hx hy
    obtain ⟨hx1, hx2⟩ := hx
    obtain ⟨hy1, hy2⟩ := hy
    rw [hx1, hx2, hy1, hy2, if_pos hrr]
    have h1 : ((letters.indexOf a % 5 + 1) % 5 + 4) % 5 = letters.indexOf a % 5 := by
      omega
    have h2 : ((letters.indexOf b % 5 + 1) % 5 + 4) % 5 = letters.indexOf b % 5 := by
      omega
    rw [h1, h2, pfSq_of_pos letters hnd hlen ha, pfSq_of_pos letters hnd hlen hb]
  · by_cases hcc : letters.indexOf a % 5 = letters.indexOf b % 5
    · refine ⟨pfSq letters ((letters.indexOf a / 5 + 1) % 5) (letters.indexOf a % 5),
        pfSq letters ((letters.indexOf b / 5 + 1) % 5) (letters.indexOf b % 5),
        by rw [if_neg hrr, if_pos hcc], pfSq_mem letters hlen _ _ (by omega) hca,
        pfSq_mem letters hlen _ _ (by omega) hcb, ?_⟩
      have hx := pfPos_of_sq letters hnd hlen
        (r := (letters.indexOf a / 5 + 1) % 5) (by omega) hca
      have hy := pfPos_of_sq letters hnd hlen
        (r := (letters.indexOf b / 5 + 1) % 5) (by omega) hcb
      unfold pfPos at hx hy
      rw [Prod.mk.injEq] at hx hy
      obtain ⟨hx1, hx2⟩ := hx
      obtain ⟨hy1, hy2⟩ := hy
      rw [hx1, hx2, hy1, hy2]
      have hrne : (letters.indexOf a / 5 + 1) % 5 ≠ (letters.indexOf b / 5 + 1) % 5 := by
        omega
      rw [if_neg hrne, if_pos hcc]
      have h1 : ((letters.indexOf a / 5 + 1) % 5 + 4) % 5 = letters.indexOf a / 5 := by
        omega
      have h2 : ((letters.indexOf b / 5 + 1) % 5 + 4) % 5 = letters.indexOf b / 5 := by
        omega
      rw [h1, h2, pfSq_of_pos letters hnd hlen ha, pfSq_of_pos letters hnd hlen hb]
    · refine ⟨pfSq letters (letters.indexOf a / 5) (letters.indexOf b % 5),
        pfSq letters (letters.indexOf b / 5) (letters.indexOf a % 5),
        by rw [if_neg hrr, if_neg hcc], pfSq_mem letters hlen _ _ hra hcb,
        pfSq_mem letters hlen _ _ hrb hca, ?_⟩
      have hx := pfPos_of_sq letters hnd hlen hra hcb
      have hy := pfPos_of_sq letters hnd hlen hrb hca
      unfold pfPos at hx hy
      rw [Prod.mk.injEq] at hx hy
      obtain ⟨hx1, hx2⟩ := hx
      obtain ⟨hy1, hy2⟩ := hy
      rw [hx1, hx2, hy1, hy2]
      rw [if_neg hrr, if_neg (fun h => hcc h.symm)]
      rw [pfSq_of_pos letters hnd hlen ha, pfSq_of_pos letters hnd hlen hb]

end Svelo

namespace Svelo

/-- The digraph builder inserts nothing when the text already pairs up
without doubled digraphs. -/
lemma digraphsAux_eq_pairsOf :
    ∀ (n : Nat) (t : List Nat), t.length ≤ n → t.length % 2 = 0 →
      (∀ p ∈ pairsOf t, p.1 ≠ p.2) → playfairDigraphsAux t = pairsOf t := by
  intro n
  induction n with
  | zero =>
      intro t ht _ _
      match t with
      | [] => rfl
      | a :: r => simp at ht
  | succ n ih =>
      intro t ht heven hp
      match t with
      | [] => rfl
      | [a] => simp at heven
      | a :: b :: rest =>
          have hab : a ≠ b := hp (a, b) (by
            rw [show pairsOf (a :: b :: rest) = (a, b) :: pairsOf rest from rfl]
            exact List.mem_cons_self _ _)
          rw [show playfairDigraphsAux (a :: b :: rest) =
            (if a = b then (a, 88) :: playfairDigraphsAux (b :: rest)
             else (a, b) :: playfairDigraphsAux rest) from rfl, if_neg hab,
            show pairsOf (a :: b :: rest) = (a, b) :: pairsOf rest from rfl]
          congr 1
          refine ih rest ?_ ?_ ?_
          · simp only [List.length_cons] at ht
            omega
          · simp only [List.length_cons] at heven ⊢
            omega
          · intro p hp'
            exact hp p (by
              rw [show pairsOf (a :: b :: rest) = (a, b) :: pairsOf rest from rfl]
              exact List.mem_cons_of_mem _ hp')

/-- Flattening the pairs of an even-length list restores it. -/
lemma pairsOf_flatMap :
    ∀ (n : Nat) (t : List Nat), t.length ≤ n → t.length % 2 = 0 →
      (pairsOf t).flatMap (fun p => [p.1, p.2]) = t := by
  intro n
  induction n with
  | zero =>
      intro t ht _
      match t with
      | [] => rfl
      | a :: r => simp at ht
  | succ n ih =>
      intro t ht heven
      match t with
      | [] => rfl
      | [a] => simp at heven
      | a :: b :: rest =>
          rw [show pairsOf (a :: b :: rest) = (a, b) :: pairsOf rest from rfl]
          simp only [List.flatMap_cons]
          rw [ih rest (by simp only [List.length_cons] at ht; omega)
            (by simp only [List.length_cons] at heven ⊢; omega)]
          rfl

/-- Both components of each pair come from the (even-length) list. -/
lemma pairsOf_mem :
    ∀ (n : Nat) (t : List Nat), t.length ≤ n → t.length % 2 = 0 →
      ∀ p ∈ pairsOf t, p.1 ∈ t ∧ p.2 ∈ t := by
  intro n
  induction n with
  | zero =>
      intro t ht _ p hp
      match t with
      | [] => cases hp
      | a :: r => simp at ht
  | succ n ih =>
      intro t ht heven p hp
      match t with
      | [] => cases hp
      | [a] => simp at heven
      | a :: b :: rest =>
          rw [show pairsOf (a :: b :: rest) = (a, b) :: pairsOf rest from rfl] at hp
          rcases List.mem_cons.1 hp with rfl | hp'
          · exact ⟨by simp, by simp⟩
          · obtain ⟨h1, h2⟩ := ih rest (by simp only [List.length_cons] at ht; omega)
              (by simp only [List.length_cons] at heven ⊢; omega) p hp'
            exact ⟨by simp [h1], by simp [h2]⟩

/-- Every letter an encryption pair emits lies in the square. -/
lemma playfairEncPair_mem (letters : List Nat) (hlen : letters.length = 25)
    (a b : Nat) (ha : a ∈ letters) (hb : b ∈ letters) :
    ∀ c ∈ playfairEncPair letters a b, c ∈ letters := by
  obtain ⟨hra, hca⟩ := pfPos_lt letters hlen ha
  obtain ⟨hrb, hcb⟩ := pfPos_lt letters hlen hb
  intro c hc
  simp only [playfairEncPair, pfPos] at hc
  split_ifs at hc <;> simp only [List.mem_cons, List.not_mem_nil, or_false] at hc <;>
    rcases hc with rfl | rfl <;>
    exact pfSq_mem letters hlen _ _ (by omega) (by omega)

/-- Decrypting the concatenated encryption blocks of well-formed digraphs
recovers the concatenated digraphs. -/
lemma playfair_blocks (letters : List Nat) (hnd : letters.Nodup)
    (hlen : letters.length = 25) :
    ∀ P : List (Nat × Nat),
      (∀ p ∈ P, p.1 ∈ letters ∧ p.2 ∈ letters ∧ p.1 ≠ p.2) →
      (pairsOf (P.flatMap fun p => playfairEncPair letters p.1 p.2)).flatMap
          (fun p => playfairDecPair letters p.1 p.2) =
        P.flatMap fun p => [p.1, p.2] := by
  intro P
  induction P with
  | nil => intro _; rfl
  | cons p P' ih =>
      intro hP
      obtain ⟨hp1, hp2, hpne⟩ := hP p (List.mem_cons_self _ _)
      obtain ⟨x, y, hxy, _, _, hdec⟩ :=
        playfair_pair_inv letters hnd hlen p.1 p.2 hp1 hp2 hpne
      simp only [List.flatMap_cons]
      rw [hxy]
      rw [show ([x, y] : List Nat) ++ (P'.flatMap fun p => playfairEncPair letters p.1 p.2) =
        x :: y :: (P'.flatMap fun p => playfairEncPair letters p.1 p.2) from rfl]
      rw [show pairsOf (x :: y :: (P'.flatMap fun p => playfairEncPair letters p.1 p.2)) =
        (x, y) :: pairsOf (P'.flatMap fun p => playfairEncPair letters p.1 p.2) from rfl]
      simp only [List.flatMap_cons]
      rw [hdec, ih fun q hq => hP q (List.mem_cons_of_mem _ hq)]

/-- Uppercase characters are fixed by `pyToUpper`. -/
lemma pyToUpper_of_upper {c : Nat} (h1 : 65 ≤ c) (h2 : c ≤ 90) :
    pyToUpper c = c := by
  unfold pyToUpper
  rw [if_neg]
  unfold isAsciiLower
  simp only [Bool.and_eq_true, decide_eq_true_eq, not_and]
  omega

/-- A list of uppercase characters passes the uppercase-normalising
preprocessing unchanged. -/
lemma upper_prep_id (t : List Nat) (h : ∀ c ∈ t, 65 ≤ c ∧ c ≤ 90) :
    (t.map pyToUpper).filter isAsciiUpper = t := by
  have h1 : t.map pyToUpper = t := by
    rw [show t.map pyToUpper = t.map id from
      List.map_congr_left fun c hc => pyToUpper_of_upper (h c hc).1 (h c hc).2,
      List.map_id]
  rw [h1]
  rw [List.filter_eq_self]
  intro c hc
  unfold isAsciiUpper
  simp only [Bool.and_eq_true, decide_eq_true_eq]
  exact h c hc

/-- Playfair round-trips on texts its digraph preprocessing leaves
unchanged: uppercase `J`-free letters, even length, no doubled digraph. -/
lemma playfair_roundtrip (text key : List Nat)
    (hup : ∀ c ∈ text, (65 ≤ c ∧ c ≤ 90) ∧ c ≠ 74)
    (heven : text.length % 2 = 0)
    (hpairs : ∀ p ∈ pairsOf text, p.1 ≠ p.2) :
    playfair_decrypt (playfair_encrypt text key) key = text := by
  have hnd := playfair_letters_nodup key
  have hlen := playfair_letters_length key
  have hmem : ∀ x ∈ text, x ∈ playfair_letters key := by
    intro x hx
    rw [mem_playfair_letters]
    exact hup x hx
  have hprep : (((text.map pyToUpper).filter isAsciiUpper).map
      fun c => if c = 74 then 73 else c) = text := by
    rw [upper_prep_id text fun c hc => (hup c hc).1]
    rw [show text.map (fun c => if c = 74 then 73 else c) = text.map id from
      List.map_congr_left fun c hc => if_neg (hup c hc).2, List.map_id]
  have hdg : playfair_digraphs text = pairsOf text := by
    unfold playfair_digraphs
    rw [hprep]
    exact digraphsAux_eq_pairsOf text.length text (le_refl _) heven hpairs
  have hPmem : ∀ p ∈ pairsOf text,
      p.1 ∈ playfair_letters key ∧ p.2 ∈ playfair_letters key ∧ p.1 ≠ p.2 := by
    intro p hp
    obtain ⟨h1, h2⟩ := pairsOf_mem text.length text (le_refl _) heven p hp
    exact ⟨hmem _ h1, hmem _ h2, hpairs p hp⟩
  simp only [playfair_encrypt, playfair_decrypt]
  rw [hdg]
  have hcupper : ∀ c ∈ ((pairsOf text).flatMap fun p =>
      playfairEncPair (playfair_letters key) p.1 p.2), 65 ≤ c ∧ c ≤ 90 := by
    intro c hc
    rw [List.mem_flatMap] at hc
    obtain ⟨p, hp, hcp⟩ := hc
    obtain ⟨hp1, hp2, _⟩ := hPmem p hp
    have := playfairEncPair_mem (playfair_letters key) hlen p.1 p.2 hp1 hp2 c hcp
    rw [mem_playfair_letters] at this
    exact this.1
  rw [upper_prep_id _ hcupper]
  rw [playfair_blocks (playfair_letters key) hnd hlen (pairsOf text) hPmem]
  exact pairsOf_flatMap text.length text (le_refl _) heven

end Svelo

namespace Svelo

/-! ## C7/C8 lemmas: Hill cipher -/

lemma natCast_mod26 (a : Nat) : ((a % 26 : Nat) : ZMod 26) = (a : ZMod 26) := by
  exact_mod_cast ZMod.natCast_mod a 26

lemma toNat_mod26_cast (z : Int) :
    (((z % 26).toNat : Nat) : ZMod 26) = ((z : Int) : ZMod 26) := by
  have h0 : (0 : Int) ≤ z % 26 := Int.emod_nonneg z (by norm_num)
  rw [show (((z % 26).toNat : Nat) : ZMod 26) =
    ((((z % 26).toNat : Nat) : Int) : ZMod 26) by push_cast; ring]
  rw [Int.toNat_of_nonneg h0]
  exact_mod_cast ZMod.intCast_mod z 26

lemma mod26_eq_of_cast (a b : Nat) (hb : b < 26)
    (h : (a : ZMod 26) = (b : ZMod 26)) : a % 26 = b := by
  have h2 : a % 26 = b % 26 := (ZMod.natCast_eq_natCast_iff a b 26).1 h
  omega

lemma modinv_prop (value invDet : Nat) (h : modinv value 26 = some invDet) :
    (value % 26) * invDet % 26 = 1 := by
  unfold modinv at h
  have := List.find?_some h
  simpa using this

/-- The inverse matrix `hill_decrypt` builds undoes one encryption block
modulo 26, given the determinant inverse `_modinv` found. -/
lemma hill_pair_roundtrip (m00 m01 m10 m11 invDet : Nat)
    (hinv : ((((m00 * m11 : Int) - (m01 * m10 : Int)) % 26).toNat % 26) *
      invDet % 26 = 1)
    (a b : Nat) (ha : a < 26) (hb : b < 26) :
    (m11 * invDet % 26 * ((m00 * a + m01 * b) % 26) +
      ((-(m01 : Int)) * invDet % 26).toNat * ((m10 * a + m11 * b) % 26)) % 26 = a ∧
    (((-(m10 : Int)) * invDet % 26).toNat * ((m00 * a + m01 * b) % 26) +
      m00 * invDet % 26 * ((m10 * a + m11 * b) % 26)) % 26 = b := by
  have hdet : ((((m00 * m11 : Int) - (m01 * m10 : Int)) % 26).toNat : ZMod 26) *
      invDet = 1 := by
    have hc := congrArg (fun n : Nat => (n : ZMod 26)) hinv
    simp only [] at hc
    rw [natCast_mod26, Nat.cast_mul, natCast_mod26] at hc
    exact_mod_cast hc
  rw [toNat_mod26_cast] at hdet
  push_cast at hdet
  constructor
  · apply mod26_eq_of_cast _ _ ha
    simp only [Nat.cast_add, Nat.cast_mul, natCast_mod26, toNat_mod26_cast,
      Int.cast_mul, Int.cast_neg, Int.cast_natCast]
    linear_combination (a : ZMod 26) * hdet
  · apply mod26_eq_of_cast _ _ hb
    simp only [Nat.cast_add, Nat.cast_mul, natCast_mod26, toNat_mod26_cast,
      Int.cast_mul, Int.cast_neg, Int.cast_natCast]
    linear_combination (b : ZMod 26) * hdet

/-- Both components of each Hill block pair come from the even list. -/
lemma hillPairs_mem :
    ∀ (n : Nat) (t : List Nat), t.length ≤ n → t.length % 2 = 0 →
      ∀ p ∈ hillPairs t, p.1 ∈ t ∧ p.2 ∈ t := by
  intro n
  induction n with
  | zero =>
      intro t ht _ p hp
      match t with
      | [] => cases hp
      | a :: r => simp at ht
  | succ n ih =>
      intro t ht heven p hp
      match t with
      | [] => cases hp
      | [a] => simp at heven
      | a :: b :: rest =>
          rw [show hillPairs (a :: b :: rest) = (a, b) :: hillPairs rest from rfl] at hp
          rcases List.mem_cons.1 hp with rfl | hp'
          · exact ⟨by simp, by simp⟩
          · obtain ⟨h1, h2⟩ := ih rest (by simp only [List.length_cons] at ht; omega)
              (by simp only [List.length_cons] at heven ⊢; omega) p hp'
            exact ⟨by simp [h1], by simp [h2]⟩

/-- Re-adding the alphabet base after pairing restores the even list. -/
lemma hillPairs_flatMap_add65 :
    ∀ (n : Nat) (t : List Nat), t.length ≤ n → t.length % 2 = 0 →
      (∀ c ∈ t, 65 ≤ c) →
      (hillPairs (t.map fun c => c - 65)).flatMap
        (fun p => [p.1 + 65, p.2 + 65]) = t := by
  intro n
  induction n with
  | zero =>
      intro t ht _ _
      match t with
      | [] => rfl
      | a :: r => simp at ht
  | succ n ih =>
      intro t ht heven hge
      match t with
      | [] => rfl
      | [a] => simp at heven
      | a :: b :: rest =>
          rw [show (a :: b :: rest).map (fun c => c - 65) =
            (a - 65) :: (b - 65) :: rest.map (fun c => c - 65) from rfl]
          rw [show hillPairs ((a - 65) :: (b - 65) :: rest.map (fun c => c - 65)) =
            (a - 65, b - 65) :: hillPairs (rest.map fun c => c - 65) from rfl]
          simp only [List.flatMap_cons]
          rw [ih rest (by simp only [List.length_cons] at ht; omega)
            (by simp only [List.length_cons] at heven ⊢; omega)
            (fun c hc => hge c (by simp [hc]))]
          have h1 : a - 65 + 65 = a := Nat.sub_add_cancel (hge a (by simp))
          have h2 : b - 65 + 65 = b := Nat.sub_add_cancel (hge b (by simp))
          rw [h1, h2]
          rfl

/-- Decrypting the mapped-down Hill cipher blockwise recovers the
base-shifted plaintext pairs. -/
lemma hill_blocks (m00 m01 m10 m11 invDet : Nat)
    (hinv : ((((m00 * m11 : Int) - (m01 * m10 : Int)) % 26).toNat % 26) *
      invDet % 26 = 1) :
    ∀ P : List (Nat × Nat), (∀ p ∈ P, p.1 < 26 ∧ p.2 < 26) →
      ((hillPairs ((P.flatMap fun p =>
          hillEncPair (m00, m01, m10, m11) p.1 p.2).map fun c => c - 65)).flatMap
        fun p => [(m11 * invDet % 26 * p.1 +
            ((-(m01 : Int)) * invDet % 26).toNat * p.2) % 26 + 65,
          (((-(m10 : Int)) * invDet % 26).toNat * p.1 +
            m00 * invDet % 26 * p.2) % 26 + 65]) =
      P.flatMap fun p => [p.1 + 65, p.2 + 65] := by
  intro P
  induction P with
  | nil => intro _; rfl
  | cons p P' ih =>
      intro hP
      obtain ⟨hp1, hp2⟩ := hP p (List.mem_cons_self _ _)
      simp only [List.flatMap_cons, List.map_append]
      have henc : (hillEncPair (m00, m01, m10, m11) p.1 p.2).map (fun c => c - 65) =
          [(m00 * p.1 + m01 * p.2) % 26, (m10 * p.1 + m11 * p.2) % 26] := by
        simp [hillEncPair]
      rw [henc]
      rw [show ([(m00 * p.1 + m01 * p.2) % 26, (m10 * p.1 + m11 * p.2) % 26] : List Nat) ++
          ((P'.flatMap fun p => hillEncPair (m00, m01, m10, m11) p.1 p.2).map
            fun c => c - 65) =
        (m00 * p.1 + m01 * p.2) % 26 :: (m10 * p.1 + m11 * p.2) % 26 ::
          ((P'.flatMap fun p => hillEncPair (m00, m01, m10, m11) p.1 p.2).map
            fun c => c - 65) from rfl]
      rw [show hillPairs ((m00 * p.1 + m01 * p.2) % 26 ::
          (m10 * p.1 + m11 * p.2) % 26 ::
          ((P'.flatMap fun p => hillEncPair (m00, m01, m10, m11) p.1 p.2).map
            fun c => c - 65)) =
        ((m00 * p.1 + m01 * p.2) % 26, (m10 * p.1 + m11 * p.2) % 26) ::
          hillPairs ((P'.flatMap fun p =>
            hillEncPair (m00, m01, m10, m11) p.1 p.2).map fun c => c - 65) from rfl]
      simp only [List.flatMap_cons]
      obtain ⟨hr1, hr2⟩ := hill_pair_roundtrip m00 m01 m10 m11 invDet hinv p.1 p.2 hp1 hp2
      rw [hr1, hr2, ih fun q hq => hP q (List.mem_cons_of_mem _ hq)]

/-- Hill 2×2 round-trips even-length uppercase text whenever the key
matrix parses and its determinant has an inverse `_modinv` can find. -/
lemma hill_roundtrip (text key : List Nat)
    (hup : ∀ c ∈ text, 65 ≤ c ∧ c ≤ 90) (heven : text.length % 2 = 0)
    (m00 m01 m10 m11 : Nat)
    (hm : hill_matrix_from_key key = some (m00, m01, m10, m11))
    (invDet : Nat)
    (hinvd : modinv ((((m00 * m11 : Int) - (m01 * m10 : Int)) % 26).toNat) 26 =
      some invDet) :
    ∃ c, hill_encrypt text key = some c ∧ hill_decrypt c key = some text := by
  have hinv := modinv_prop _ _ hinvd
  have hraw : ((text.map pyToUpper).filter isAsciiUpper).map (fun c => c - 65) =
      text.map fun c => c - 65 := by
    rw [upper_prep_id text hup]
  refine ⟨_, by rw [hill_encrypt, hm, Option.map_some'], ?_⟩
  have hPlt : ∀ p ∈ hillPairs (text.map fun c => c - 65), p.1 < 26 ∧ p.2 < 26 := by
    intro p hp
    obtain ⟨h1, h2⟩ := hillPairs_mem (text.map fun c => c - 65).length _
      (le_refl _) (by simp [heven]) p hp
    rw [List.mem_map] at h1 h2
    obtain ⟨c1, hc1, he1⟩ := h1
    obtain ⟨c2, hc2, he2⟩ := h2
    have := hup c1 hc1
    have := hup c2 hc2
    omega
  have hcip : ∀ c ∈ ((hillPairs ((text.map pyToUpper).filter isAsciiUpper |>.map
      fun c => c - 65)).flatMap fun p => hillEncPair (m00, m01, m10, m11) p.1 p.2),
      65 ≤ c ∧ c ≤ 90 := by
    rw [hraw]
    intro c hc
    rw [List.mem_flatMap] at hc
    obtain ⟨p, hp, hcp⟩ := hc
    simp only [hillEncPair, List.mem_cons, List.not_mem_nil, or_false] at hcp
    rcases hcp with rfl | rfl
    · have := Nat.mod_lt (m00 * p.1 + m01 * p.2) (show 0 < 26 by norm_num)
      omega
    · have := Nat.mod_lt (m10 * p.1 + m11 * p.2) (show 0 < 26 by norm_num)
      omega
  rw [hill_decrypt]
  rw [hm]
  simp only [Option.bind_eq_bind, Option.some_bind, hinvd]
  rw [upper_prep_id _ hcip, hraw]
  rw [hill_blocks m00 m01 m10 m11 invDet hinv (hillPairs (text.map fun c => c - 65)) hPlt]
  rw [hillPairs_flatMap_add65 text.length text (le_refl _) heven
    (fun c hc => (hup c hc).1)]
  rfl

end Svelo

namespace Svelo

/-! ## C7 lemmas: ADFGX / ADFGVX -/

lemma find?_eq_some_of_unique {l : List Nat} {p : Nat → Bool} {ch : Nat}
    (hch : ch ∈ l) (huniq : ∀ x ∈ l, p x = true ↔ x = ch) :
    l.find? p = some ch := by
  induction l with
  | nil => cases hch
  | cons a l' ih =>
      by_cases hpa : p a = true
      · have ha : a = ch := (huniq a (List.mem_cons_self _ _)).1 hpa
        subst ha
        rw [List.find?_cons_of_pos _ hpa]
      · rw [List.find?_cons_of_neg _ (by simp [hpa])]
        have hch' : ch ∈ l' := by
          rcases List.mem_cons.1 hch with rfl | h
          · exact absurd ((huniq ch (List.mem_cons_self _ _)).2 rfl) hpa
          · exact h
        exact ih hch' fun x hx => huniq x (List.mem_cons_of_mem _ hx)

/-- The reverse square lookup inverts the coordinate map on square
letters, for a duplicate-free square over duplicate-free symbols. -/
lemma squareUncoord_coords (letters symbols : List Nat) (hnd : letters.Nodup)
    (hsnd : symbols.Nodup)
    (hlen : letters.length = symbols.length * symbols.length)
    {ch : Nat} (hch : ch ∈ letters) :
    squareUncoord letters symbols (squareCoords letters symbols ch) = some ch := by
  have hn : 0 < symbols.length := by
    rcases Nat.eq_zero_or_pos symbols.length with h0 | h
    · rw [h0] at hlen
      simp only [Nat.mul_zero] at hlen
      rw [List.length_eq_zero] at hlen
      rw [hlen] at hch
      cases hch
    · exact h
  unfold squareUncoord
  apply find?_eq_some_of_unique hch
  intro x hx
  simp only [beq_iff_eq]
  constructor
  · intro he
    unfold squareCoords at he
    simp only [List.cons.injEq, and_true] at he
    obtain ⟨h1, h2⟩ := he
    have hxlt : letters.indexOf x < symbols.length * symbols.length := by
      have := indexOf_lt_length_of_mem hx
      omega
    have hchlt : letters.indexOf ch < symbols.length * symbols.length := by
      have := indexOf_lt_length_of_mem hch
      omega
    have hxd : letters.indexOf x / symbols.length < symbols.length :=
      Nat.div_lt_of_lt_mul hxlt
    have hchd : letters.indexOf ch / symbols.length < symbols.length :=
      Nat.div_lt_of_lt_mul hchlt
    have hxm : letters.indexOf x % symbols.length < symbols.length :=
      Nat.mod_lt _ hn
    have hchm : letters.indexOf ch % symbols.length < symbols.length :=
      Nat.mod_lt _ hn
    have hd : letters.indexOf x / symbols.length =
        letters.indexOf ch / symbols.length := by
      have e1 := indexOf_getD hsnd hxd
      have e2 := indexOf_getD hsnd hchd
      rw [← e1, ← e2, h1]
    have hm : letters.indexOf x % symbols.length =
        letters.indexOf ch % symbols.length := by
      have e1 := indexOf_getD hsnd hxm
      have e2 := indexOf_getD hsnd hchm
      rw [← e1, ← e2, h2]
    have heq : letters.indexOf x = letters.indexOf ch := by
      have e1 := Nat.div_add_mod (letters.indexOf x) symbols.length
      have e2 := Nat.div_add_mod (letters.indexOf ch) symbols.length
      rw [hd, hm] at e1
      omega
    have g1 := getD_indexOf hx
    have g2 := getD_indexOf hch
    rw [← g1, ← g2, heq]
  · rintro rfl
    rfl

/-- The flat-map of two-symbol coordinate blocks has even length. -/
lemma flatMap_coords_even (letters symbols : List Nat) (t : List Nat) :
    (t.flatMap (squareCoords letters symbols)).length % 2 = 0 := by
  induction t with
  | nil => rfl
  | cons ch t' ih =>
      simp only [List.flatMap_cons, List.length_append]
      rw [show (squareCoords letters symbols ch).length = 2 from rfl]
      omega

/-- Chunking the coordinate stream and reverse-looking-up each digraph
restores the square text. -/
lemma coords_chunks_mapM (letters symbols : List Nat) (hnd : letters.Nodup)
    (hsnd : symbols.Nodup)
    (hlen : letters.length = symbols.length * symbols.length) :
    ∀ t : List Nat, (∀ c ∈ t, c ∈ letters) →
      (digraphChunks (t.flatMap (squareCoords letters symbols))).mapM
        (squareUncoord letters symbols) = some t := by
  intro t
  induction t with
  | nil => intro _; rfl
  | cons ch t' ih =>
      intro hmem
      simp only [List.flatMap_cons]
      rw [show squareCoords letters symbols ch =
        [symbols.getD (letters.indexOf ch / symbols.length) 0,
         symbols.getD (letters.indexOf ch % symbols.length) 0] from rfl]
      rw [show ([symbols.getD (letters.indexOf ch / symbols.length) 0,
          symbols.getD (letters.indexOf ch % symbols.length) 0] : List Nat) ++
          (t'.flatMap (squareCoords letters symbols)) =
        symbols.getD (letters.indexOf ch / symbols.length) 0 ::
          symbols.getD (letters.indexOf ch % symbols.length) 0 ::
          (t'.flatMap (squareCoords letters symbols)) from rfl]
      rw [show digraphChunks (symbols.getD (letters.indexOf ch / symbols.length) 0 ::
          symbols.getD (letters.indexOf ch % symbols.length) 0 ::
          (t'.flatMap (squareCoords letters symbols))) =
        [symbols.getD (letters.indexOf ch / symbols.length) 0,
         symbols.getD (letters.indexOf ch % symbols.length) 0] ::
          digraphChunks (t'.flatMap (squareCoords letters symbols)) from rfl]
      rw [List.mapM_cons]
      rw [show ([symbols.getD (letters.indexOf ch / symbols.length) 0,
          symbols.getD (letters.indexOf ch % symbols.length) 0] : List Nat) =
        squareCoords letters symbols ch from rfl]
      rw [squareUncoord_coords letters symbols hnd hsnd hlen
        (hmem ch (List.mem_cons_self _ _))]
      rw [ih fun c hc => hmem c (List.mem_cons_of_mem _ hc)]
      rfl

/-- `adfgx_decrypt` undoes `adfgx_encrypt` on uppercase `J`-free text
when the transposition key has a letter. -/
lemma adfgx_roundtrip (text squareKey transKey : List Nat)
    (hup : ∀ c ∈ text, (65 ≤ c ∧ c ≤ 90) ∧ c ≠ 74)
    (htk : columnar_key_order transKey ≠ []) :
    adfgx_decrypt (adfgx_encrypt text squareKey transKey) squareKey transKey =
      some text := by
  have hplf : adfgx_letters squareKey = playfair_letters squareKey := rfl
  have hnd : (adfgx_letters squareKey).Nodup := by
    rw [hplf]; exact playfair_letters_nodup squareKey
  have hlen : (adfgx_letters squareKey).length = 25 := by
    rw [hplf]; exact playfair_letters_length squareKey
  have hmem : ∀ x ∈ text, x ∈ adfgx_letters squareKey := by
    intro x hx
    rw [hplf, mem_playfair_letters]
    exact hup x hx
  have hprep : (((text.map pyToUpper).filter isAsciiUpper).map
      fun c => if c = 74 then 73 else c) = text := by
    rw [upper_prep_id text fun c hc => (hup c hc).1]
    rw [show text.map (fun c => if c = 74 then 73 else c) = text.map id from
      List.map_congr_left fun c hc => if_neg (hup c hc).2, List.map_id]
  simp only [adfgx_encrypt, adfgx_decrypt]
  rw [hprep]
  rw [columnar_roundtrip _ transKey htk]
  have heven := flatMap_coords_even (adfgx_letters squareKey) adfgxSymbols text
  rw [if_neg (by omega)]
  exact coords_chunks_mapM (adfgx_letters squareKey) adfgxSymbols hnd
    (by decide) (by rw [hlen]; rfl) text hmem

lemma adfgvxBase_nodup : adfgvxBase.Nodup := by decide

lemma mem_adfgvxBase (x : Nat) :
    x ∈ adfgvxBase ↔ (65 ≤ x ∧ x ≤ 90) ∨ (48 ≤ x ∧ x ≤ 57) := by
  unfold adfgvxBase
  rw [List.mem_append, mem_azList, List.mem_range'_1]
  omega

lemma adfgvx_letters_perm (key : List Nat) :
    (adfgvx_letters key).Perm adfgvxBase := by
  refine buildKeyedAlphabet_perm _ _ adfgvxBase_nodup ?_
  intro x hx
  rw [List.mem_filter] at hx
  obtain ⟨hmap, halnum⟩ := hx
  rw [List.mem_map] at hmap
  obtain ⟨c, _, rfl⟩ := hmap
  rw [mem_adfgvxBase]
  unfold pyIsAlnum pyIsAlpha pyIsDigit isAsciiUpper isAsciiLower at halnum
  unfold pyToUpper isAsciiLower at halnum ⊢
  by_cases hl : (97 ≤ c && c ≤ 122) = true
  · rw [if_pos hl] at halnum ⊢
    simp only [Bool.and_eq_true, decide_eq_true_eq] at hl
    omega
  · rw [if_neg hl] at halnum ⊢
    simp only [Bool.or_eq_true, Bool.and_eq_true, decide_eq_true_eq] at halnum hl
    omega

lemma adfgvx_letters_nodup (key : List Nat) : (adfgvx_letters key).Nodup :=
  (adfgvx_letters_perm key).nodup_iff.2 adfgvxBase_nodup

lemma adfgvx_letters_length (key : List Nat) : (adfgvx_letters key).length = 36 := by
  rw [(adfgvx_letters_perm key).length_eq]
  decide

lemma mem_adfgvx_letters (key : List Nat) (x : Nat) :
    x ∈ adfgvx_letters key ↔ (65 ≤ x ∧ x ≤ 90) ∨ (48 ≤ x ∧ x ≤ 57) := by
  rw [(adfgvx_letters_perm key).mem_iff, mem_adfgvxBase]

/-- Alphanumeric text (uppercase letters and digits) passes the
alnum-normalising preprocessing unchanged. -/
lemma alnum_prep_id (t : List Nat)
    (h : ∀ c ∈ t, (65 ≤ c ∧ c ≤ 90) ∨ (48 ≤ c ∧ c ≤ 57)) :
    (t.map pyToUpper).filter pyIsAlnum = t := by
  have h1 : t.map pyToUpper = t := by
    rw [show t.map pyToUpper = t.map id from
      List.map_congr_left fun c hc => by
        unfold pyToUpper
        rw [if_neg]
        · rfl
        · unfold isAsciiLower
          simp only [Bool.and_eq_true, decide_eq_true_eq, not_and]
          rcases h c hc with h' | h' <;> omega,
      List.map_id]
  rw [h1, List.filter_eq_self]
  intro c hc
  unfold pyIsAlnum pyIsAlpha pyIsDigit isAsciiUpper isAsciiLower
  simp only [Bool.or_eq_true, Bool.and_eq_true, decide_eq_true_eq]
  rcases h c hc with h' | h' <;> omega

/-- `adfgvx_decrypt` undoes `adfgvx_encrypt` on uppercase-alphanumeric
text when the transposition key has a letter. -/
lemma adfgvx_roundtrip (text squareKey transKey : List Nat)
    (hok : ∀ c ∈ text, (65 ≤ c ∧ c ≤ 90) ∨ (48 ≤ c ∧ c ≤ 57))
    (htk : columnar_key_order transKey ≠ []) :
    adfgvx_decrypt (adfgvx_encrypt text squareKey transKey) squareKey transKey =
      some text := by
  have hnd := adfgvx_letters_nodup squareKey
  have hlen := adfgvx_letters_length squareKey
  have hmem : ∀ x ∈ text, x ∈ adfgvx_letters squareKey := by
    intro x hx
    rw [mem_adfgvx_letters]
    exact hok x hx
  simp only [adfgvx_encrypt, adfgvx_decrypt]
  rw [alnum_prep_id text hok]
  rw [columnar_roundtrip _ transKey htk]
  have heven := flatMap_coords_even (adfgvx_letters squareKey) adfgvxSymbols text
  rw [if_neg (by omega)]
  exact coords_chunks_mapM (adfgvx_letters squareKey) adfgvxSymbols hnd
    (by decide) (by rw [hlen]; rfl) text hmem

end Svelo

namespace Svelo

/-- C7: round-trip of the ten keyed ciphers, each under the key validity
its source enforces: every cipher built on `_clean_key_alpha` (all but
ADFGVX's square) raises `ValueError` on a key with no letter, and
`_adfgvx_square` raises on a square key with no letter or digit, so each
conjunct hypothesises the corresponding cleaned key non-empty. Hill
additionally needs the parsed 4-letter key matrix and an invertible
determinant plus even-length uppercase text; the square ciphers need
text inside their square alphabet. Playfair does NOT round-trip on all
of its supported alphabet (see the counterexample): it needs text its
digraph preprocessing fixes — even length and no doubled digraph. -/
theorem c7_keyed_cipher_roundtrips :
    (∀ text key : List Nat, clean_key_alpha key ≠ [] →
      vigenere_decrypt (vigenere_encrypt text key) key = text) ∧
    (∀ text key : List Nat, clean_key_alpha key ≠ [] →
      beaufort_decrypt (beaufort_encrypt text key) key = text) ∧
    (∀ text key : List Nat, clean_key_alpha key ≠ [] →
      variant_beaufort_decrypt (variant_beaufort_encrypt text key) key = text) ∧
    (∀ text key : List Nat, clean_key_alpha key ≠ [] →
      ∃ c, autokey_encrypt text key = some c ∧
        autokey_decrypt c key = some text) ∧
    (∀ text key : List Nat, clean_key_alpha key ≠ [] →
      keyword_substitution_decrypt (keyword_substitution_encrypt text key) key =
        text) ∧
    (∀ text key : List Nat, columnar_key_order key ≠ [] →
      columnar_decrypt (columnar_encrypt text key) key = text) ∧
    (∀ text key : List Nat, clean_key_alpha key ≠ [] →
      (∀ c ∈ text, (65 ≤ c ∧ c ≤ 90) ∧ c ≠ 74) →
      text.length % 2 = 0 → (∀ p ∈ pairsOf text, p.1 ≠ p.2) →
      playfair_decrypt (playfair_encrypt text key) key = text) ∧
    (∀ (text key : List Nat) (m00 m01 m10 m11 invDet : Nat),
      (∀ c ∈ text, 65 ≤ c ∧ c ≤ 90) → text.length % 2 = 0 →
      hill_matrix_from_key key = some (m00, m01, m10, m11) →
      modinv ((((m00 * m11 : Int) - (m01 * m10 : Int)) % 26).toNat) 26 =
        some invDet →
      ∃ c, hill_encrypt text key = some c ∧ hill_decrypt c key = some text) ∧
    (∀ text squareKey transKey : List Nat, clean_key_alpha squareKey ≠ [] →
      (∀ c ∈ text, (65 ≤ c ∧ c ≤ 90) ∧ c ≠ 74) →
      columnar_key_order transKey ≠ [] →
      adfgx_decrypt (adfgx_encrypt text squareKey transKey) squareKey transKey =
        some text) ∧
    (∀ text squareKey transKey : List Nat,
      (squareKey.map pyToUpper).filter pyIsAlnum ≠ [] →
      (∀ c ∈ text, (65 ≤ c ∧ c ≤ 90) ∨ (48 ≤ c ∧ c ≤ 57)) →
      columnar_key_order transKey ≠ [] →
      adfgvx_decrypt (adfgvx_encrypt text squareKey transKey) squareKey transKey =
        some text) :=
  ⟨fun text key _ => vigenere_roundtrip text key,
   fun text key _ => beaufort_roundtrip text key,
   fun text key _ => variant_beaufort_roundtrip text key,
   autokey_roundtrip,
   fun text key _ => keyword_roundtrip text key,
   columnar_roundtrip,
   fun text key _ hup he hp => playfair_roundtrip text key hup he hp,
   fun text key m00 m01 m10 m11 invDet hup he hm hi =>
     hill_roundtrip text key hup he m00 m01 m10 m11 hm invDet hi,
   fun text squareKey transKey _ hup htk =>
     adfgx_roundtrip text squareKey transKey hup htk,
   fun text squareKey transKey _ hok htk =>
     adfgvx_roundtrip text squareKey transKey hok htk⟩

/-- C7 witness: each conjunct applied at a concrete key and plaintext. -/
theorem c7_keyed_cipher_roundtrips_witness :
    vigenere_decrypt (vigenere_encrypt (pyStr "Hello") (pyStr "KEY"))
      (pyStr "KEY") = pyStr "Hello" ∧
    beaufort_decrypt (beaufort_encrypt (pyStr "Hello") (pyStr "KEY"))
      (pyStr "KEY") = pyStr "Hello" ∧
    variant_beaufort_decrypt
      (variant_beaufort_encrypt (pyStr "Hello") (pyStr "KEY")) (pyStr "KEY") =
      pyStr "Hello" ∧
    (∃ c, autokey_encrypt (pyStr "Hello") (pyStr "KEY") = some c ∧
      autokey_decrypt c (pyStr "KEY") = some (pyStr "Hello")) ∧
    keyword_substitution_decrypt
      (keyword_substitution_encrypt (pyStr "Hello") (pyStr "SECRET"))
      (pyStr "SECRET") = pyStr "Hello" ∧
    columnar_decrypt
      (columnar_encrypt (pyStr "WEAREDISCOVERED") (pyStr "ZEBRAS"))
      (pyStr "ZEBRAS") = pyStr "WEAREDISCOVERED" ∧
    playfair_decrypt (playfair_encrypt (pyStr "HIDE") (pyStr "KEY"))
      (pyStr "KEY") = pyStr "HIDE" ∧
    (∃ c, hill_encrypt (pyStr "HELP") (pyStr "HILL") = some c ∧
      hill_decrypt c (pyStr "HILL") = some (pyStr "HELP")) ∧
    adfgx_decrypt
      (adfgx_encrypt (pyStr "ATTACK") (pyStr "BTALPDH") (pyStr "CARGO"))
      (pyStr "BTALPDH") (pyStr "CARGO") = some (pyStr "ATTACK") ∧
    adfgvx_decrypt
      (adfgvx_encrypt (pyStr "ATTACK9") (pyStr "KEY") (pyStr "CARGO"))
      (pyStr "KEY") (pyStr "CARGO") = some (pyStr "ATTACK9") := by
  obtain ⟨hv, hbf, hvb, hak, hkw, hcol, hpf, hhl, hax, havx⟩ :=
    c7_keyed_cipher_roundtrips
  exact ⟨hv _ _ (by decide), hbf _ _ (by decide), hvb _ _ (by decide),
    hak _ _ (by decide), hkw _ _ (by decide), hcol _ _ (by decide),
    hpf _ _ (by decide) (by decide) (by decide) (by decide),
    hhl (pyStr "HELP") (pyStr "HILL") 7 8 11 11 7 (by decide) (by decide)
      (by decide) (by decide),
    hax _ _ _ (by decide) (by decide) (by decide),
    havx _ _ _ (by decide) (by decide) (by decide)⟩

/-- C7 counterexample: within Playfair's supported alphabet, a doubled
digraph does not round-trip — `X` insertion makes `decrypt (encrypt "AA")`
come back as `"AXAX"`. -/
theorem c7_playfair_counterexample :
    playfair_decrypt (playfair_encrypt (pyStr "AA") (pyStr "KEY"))
      (pyStr "KEY") ≠ pyStr "AA" := by
  decide

/-- C8: the spec's key `"GYBN"` has determinant 54 ≡ 2 (mod 26), which
has no inverse mod 26, so `hill_decrypt` fails (`_modinv` raises
`ValueError`) on EVERY ciphertext; the round-trip the spec intends does
hold for an invertible key such as `"HILL"` on all even-length uppercase
plaintext. -/
theorem c8_hill_gybn :
    (∀ text : List Nat, (∀ c ∈ text, 65 ≤ c ∧ c ≤ 90) →
      text.length % 2 = 0 →
      ∃ c, hill_encrypt text (pyStr "HILL") = some c ∧
        hill_decrypt c (pyStr "HILL") = some text) ∧
    (∀ cipher : List Nat, hill_decrypt cipher (pyStr "GYBN") = none) := by
  constructor
  · intro text hup he
    exact hill_roundtrip text (pyStr "HILL") hup he 7 8 11 11 (by decide) 7
      (by decide)
  · intro cipher
    rw [hill_decrypt]
    rw [show hill_matrix_from_key (pyStr "GYBN") = some (6, 24, 1, 13) from by
      decide]
    simp only [Option.bind_eq_bind, Option.some_bind]
    rw [show modinv (((((6 : Nat) : Int) * ((13 : Nat) : Int) -
      ((24 : Nat) : Int) * ((1 : Nat) : Int)) % 26).toNat) 26 =
      none from by decide]
    rfl

/-- C8 witness: the two halves at concrete inputs. -/
theorem c8_hill_gybn_witness :
    (∃ c, hill_encrypt (pyStr "HELP") (pyStr "HILL") = some c ∧
      hill_decrypt c (pyStr "HILL") = some (pyStr "HELP")) ∧
    hill_decrypt (pyStr "YN") (pyStr "GYBN") = none := by
  obtain ⟨h1, h2⟩ := c8_hill_gybn
  exact ⟨h1 (pyStr "HELP") (by decide) (by decide), h2 (pyStr "YN")⟩

/-- C8 counterexample: encryption with `"GYBN"` succeeds but decryption
of its own output fails, refuting the claimed round-trip. -/
theorem c8_counterexample :
    hill_encrypt (pyStr "AB") (pyStr "GYBN") = some (pyStr "YN") ∧
    hill_decrypt (pyStr "YN") (pyStr "GYBN") = none := by
  decide

end Svelo
